import Mathlib

/-!
Verification of the esoteric-language decoder (`ciphey/basemods/Decoders/ook.py`).

This file gives a shallow embedding of the `Ook` decoder: the transpiler
`ook_to_brainfuck`, the structure validator `bracemap_and_check`, the tape
machine inside `decode`, and the `decode` facade itself, together with
theorems settling the specification claims about them.

Modelling conventions:
* Python strings are `List Char`; `str.lower` is modelled on ASCII by
  `Char.toLower`, and the whitespace class of `str.split`, `str.strip` and
  the regex class `\s` is modelled by the six ASCII whitespace characters.
* The Python dict `bracemap` is an association list where a fresh binding is
  prepended, so `List.lookup` (first match) realizes last-write-wins.
* Wall-clock time is an oracle `elapsed : Nat -> Rat` giving, for each
  iteration of the interpreter loop, the value `time.time() - start` observed
  at the top of that iteration.
* The unbounded `while` loop is run on explicit fuel; running out of fuel is
  the distinguished `fuelOut` outcome, a model artifact that real execution
  never exhibits for the inputs a theorem speaks about.
* A Python exception escaping `decode` (IndexError, KeyError, ValueError
  from `chr`) is the distinguished `fault` outcome.
-/

namespace Ook

/-- ASCII whitespace, modelling Python's whitespace class
(space, tab, newline, carriage return, vertical tab, form feed). -/
def isPyWs (c : Char) : Bool :=
  c == ' ' || c == '\t' || c == '\n' || c == '\r' || c == Char.ofNat 11 || c == Char.ofNat 12

/-- Model of `str.lower` (ASCII). -/
def pyLower (l : List Char) : List Char := l.map Char.toLower

/-- Model of `str.strip()`: drop leading and trailing whitespace. -/
def pyStrip (l : List Char) : List Char :=
  ((l.dropWhile isPyWs).reverse.dropWhile isPyWs).reverse

/-- Worker for `str.split()` with no separator: split on runs of whitespace,
discarding empty pieces.  `acc` holds the (reversed) current token. -/
def splitWsAux : List Char → List Char → List (List Char)
  | [], acc => if acc.isEmpty then [] else [acc.reverse]
  | c :: rest, acc =>
    if isPyWs c then
      if acc.isEmpty then splitWsAux rest [] else acc.reverse :: splitWsAux rest []
    else
      splitWsAux rest (c :: acc)

/-- Model of `str.split()` with no separator. -/
def pySplit (l : List Char) : List (List Char) := pySplit.go l
where go (l : List Char) : List (List Char) := splitWsAux l []

/-- The `ook_map` table from `Ook.ook_to_brainfuck` (source lines 122-131). -/
def ook_map : List (List Char × Char) :=
  [("ook. ook?".toList, '>'),
   ("ook? ook.".toList, '<'),
   ("ook. ook.".toList, '+'),
   ("ook! ook!".toList, '-'),
   ("ook! ook.".toList, '.'),
   ("ook. ook!".toList, ','),
   ("ook! ook?".toList, '['),
   ("ook? ook!".toList, ']')]

/-- The pairing loop of `ook_to_brainfuck`, rendered as a state machine over
the token stream: while at least two tokens remain (`tokens[i]`, held as the
pending first component, plus the head of the remainder), try the pair they
form; on a hit emit the instruction and advance past both tokens, on a miss
advance past one token.  The loop `while i < len(tokens) - 1` exits when no
second token is left. -/
def ookPairsGo : Option (List Char) → List (List Char) → List Char
  | _, [] => []
  | none, t :: rest => ookPairsGo (some t) rest
  | some t1, t2 :: rest =>
    match ook_map.lookup (t1 ++ ' ' :: t2) with
    | some c => c :: ookPairsGo none rest
    | none => ookPairsGo (some t2) rest

/-- The pairing loop of `ook_to_brainfuck` started at the first token. -/
def ookPairs (tokens : List (List Char)) : List Char := ookPairsGo none tokens

/-- `Ook.ook_to_brainfuck` (source lines 117-154): lower-case, strip, split on
whitespace, pair greedily, and fail if no instruction was produced. -/
def ook_to_brainfuck (ook_program : List Char) : Option (List Char) :=
  let cleaned := pyStrip (pyLower ook_program)
  let tokens := pySplit cleaned
  let brainfuck_code := ookPairs tokens
  if brainfuck_code.isEmpty then none else some brainfuck_code

/-- The set of legal Brainfuck instruction characters (source line 167). -/
def legal_instructions : List Char := ['+', '-', '>', '<', '[', ']', '.', ',']

/-- State of the single-pass scan in `Ook.bracemap_and_check`. -/
structure ScanState where
  openStack : List Nat
  bm : List (Nat × Nat)
  prints : Bool
  legalCount : Nat
deriving Repr, DecidableEq

/-- One iteration of the `for idx, instruction in enumerate(program)` loop of
`bracemap_and_check`; `none` is the early `return (None, False)` taken on an
unmatched closing bracket. -/
def scanStep (idx : Nat) (c : Char) (st : ScanState) : Option ScanState :=
  let st := if legal_instructions.contains c || isPyWs c then
    { st with legalCount := st.legalCount + 1 } else st
  if !st.prints && c == '.' then
    some { st with prints := true }
  else if c == '[' then
    some { st with openStack := idx :: st.openStack }
  else if c == ']' then
    match st.openStack with
    | [] => none
    | opbracket :: restStack =>
      some { st with openStack := restStack,
                     bm := (idx, opbracket) :: (opbracket, idx) :: st.bm }
  else
    some st

/-- The scan loop of `bracemap_and_check` over the remaining characters,
`idx` being the index of the first of them. -/
def scanGo : Nat → List Char → ScanState → Option ScanState
  | _, [], st => some st
  | idx, c :: rest, st =>
    match scanStep idx c st with
    | none => none
    | some st' => scanGo (idx + 1) rest st'

/-- `Ook.bracemap_and_check` (source lines 156-201). -/
def bracemap_and_check (program : List Char) : Option (List (Nat × Nat)) × Bool :=
  match scanGo 0 program ⟨[], [], false, 0⟩ with
  | none => (none, false)
  | some st =>
    (some st.bm, st.legalCount == program.length && st.openStack.isEmpty && st.prints)

/-- The mutable state of the interpreter loop in `Ook.decode`:
`memory` (the tape, byte cells), `codeptr` (instruction pointer),
`memptr` (tape pointer) and `result` (output, as character codes). -/
structure MachineState where
  memory : List Nat
  codeptr : Nat
  memptr : Nat
  result : List Nat
deriving Repr, DecidableEq

/-- Outcome of one loop iteration body: the next state, or a Python
exception (out-of-range tape access, missing bracemap key, `chr` domain
error). -/
inductive StepRes where
  | cont : MachineState → StepRes
  | fault : StepRes
deriving Repr, DecidableEq

/-- One iteration body of the `while codeptr < len(brainfuck_code)` loop in
`Ook.decode` (source lines 70-112), after the time check: dispatch on the
current instruction and finish with the unconditional `codeptr += 1`
(folded into each branch; a taken jump first sets `codeptr` to the bracemap
target and the final increment still applies). -/
def execStep (prog : List Char) (bm : List (Nat × Nat)) (st : MachineState) : StepRes :=
  match prog.get? st.codeptr with
  | none => .fault
  | some cmd =>
    if cmd == '+' then
      match st.memory.get? st.memptr with
      | none => .fault
      | some v =>
        let v' := if v < 255 then v + 1 else 0
        .cont { st with memory := st.memory.set st.memptr v', codeptr := st.codeptr + 1 }
    else if cmd == '-' then
      match st.memory.get? st.memptr with
      | none => .fault
      | some v =>
        let v' := if v > 0 then v - 1 else 255
        .cont { st with memory := st.memory.set st.memptr v', codeptr := st.codeptr + 1 }
    else if cmd == '>' then
      let memory' := if (st.memptr : Int) = (st.memory.length : Int) - 1
        then st.memory ++ [0] else st.memory
      .cont { st with memory := memory', memptr := st.memptr + 1, codeptr := st.codeptr + 1 }
    else if cmd == '<' then
      let memptr' := if st.memptr == 0 then st.memory.length - 1 else st.memptr - 1
      .cont { st with memptr := memptr', codeptr := st.codeptr + 1 }
    else if cmd == '[' then
      match st.memory.get? st.memptr with
      | none => .fault
      | some v =>
        if v == 0 then
          match bm.lookup st.codeptr with
          | none => .fault
          | some target => .cont { st with codeptr := target + 1 }
        else .cont { st with codeptr := st.codeptr + 1 }
    else if cmd == ']' then
      match st.memory.get? st.memptr with
      | none => .fault
      | some v =>
        if v != 0 then
          match bm.lookup st.codeptr with
          | none => .fault
          | some target => .cont { st with codeptr := target + 1 }
        else .cont { st with codeptr := st.codeptr + 1 }
    else if cmd == '.' then
      match st.memory.get? st.memptr with
      | none => .fault
      | some v =>
        if v < 1114112 then
          .cont { st with result := st.result ++ [v], codeptr := st.codeptr + 1 }
        else .fault
    else if cmd == ',' then
      if st.memptr < st.memory.length then
        .cont { st with memory := st.memory.set st.memptr 0, codeptr := st.codeptr + 1 }
      else .fault
    else
      .cont { st with codeptr := st.codeptr + 1 }

/-- Result of the interpreter loop: normal termination with the output,
the 60-second timeout, a propagating exception, or fuel exhaustion (a model
artifact of embedding the unbounded `while` loop). -/
inductive RunResult where
  | ok : List Nat → RunResult
  | timeout : RunResult
  | fault : RunResult
  | fuelOut : RunResult
deriving Repr, DecidableEq

/-- `timelimit = 60` (source line 49). -/
def timelimit : ℚ := 60

/-- The `while codeptr < len(brainfuck_code)` loop of `Ook.decode`
(source lines 61-112).  `elapsed stepIdx` is the oracle value of
`time.time() - start` observed at iteration number `stepIdx`. -/
def run (elapsed : Nat → ℚ) (prog : List Char) (bm : List (Nat × Nat)) :
    Nat → Nat → MachineState → RunResult
  | 0, _, _ => .fuelOut
  | fuel + 1, stepIdx, st =>
    if st.codeptr < prog.length then
      if elapsed stepIdx > timelimit then .timeout
      else
        match execStep prog bm st with
        | .fault => .fault
        | .cont st' => run elapsed prog bm fuel (stepIdx + 1) st'
    else .ok st.result

/-- The interpreter loop with the time check erased; proof device relating
`run` under a clock that never exceeds the limit to a clock-free execution. -/
def runNT (prog : List Char) (bm : List (Nat × Nat)) : Nat → MachineState → RunResult
  | 0, _ => .fuelOut
  | fuel + 1, st =>
    if st.codeptr < prog.length then
      match execStep prog bm st with
      | .fault => .fault
      | .cont st' => runNT prog bm fuel st'
    else .ok st.result

/-- `memory = [0] * 100` (source line 47). -/
def initialMemory : List Nat := List.replicate 100 0

/-- The initial machine state of `Ook.decode` (source lines 46-48). -/
def initialState : MachineState := ⟨initialMemory, 0, 0, []⟩

/-- Outcome of `Ook.decode`: the returned `Optional[str]`, a propagating
exception, or fuel exhaustion (model artifact). -/
inductive DecodeRes where
  | result : Option String → DecodeRes
  | fault : DecodeRes
  | fuelOut : DecodeRes
deriving Repr, DecidableEq

/-- `result += chr(...)` accumulation rendered as a Lean string. -/
def bytesToString (l : List Nat) : String := (l.map Char.ofNat).asString

/-- Adapt a loop result to the value `decode` returns: normal termination
returns the accumulated output, a timeout returns `None`. -/
def RunResult.toDecodeRes : RunResult → DecodeRes
  | .ok out => .result (some (bytesToString out))
  | .timeout => .result none
  | .fault => .fault
  | .fuelOut => .fuelOut

/-- `Ook.decode` (source lines 13-115), instrumented: the first component
counts how many times `ook_to_brainfuck` (the transpiler) is invoked on this
call, the second is the returned value.  `decode` always transpiles first;
there is no applicability pre-check inside it. -/
def decodeCore (elapsed : Nat → ℚ) (fuel : Nat) (ctext : String) : Nat × DecodeRes :=
  match ook_to_brainfuck ctext.data with
  | none => (1, .result none)
  | some brainfuck_code =>
    match bracemap_and_check brainfuck_code with
    | (bmOpt, isbf) =>
      if isbf then
        match bmOpt with
        | none => (1, .fault)
        | some bracemap =>
          (1, (run elapsed brainfuck_code bracemap fuel 0 initialState).toDecodeRes)
      else (1, .result none)

/-- `Ook.decode` (source lines 13-115). -/
def decode (elapsed : Nat → ℚ) (fuel : Nat) (ctext : String) : DecodeRes :=
  (decodeCore elapsed fuel ctext).2

/-! ### Specification-side definitions used by the claims -/

/-- The tape pointer addresses an existing cell and every cell holds a byte. -/
def GoodState (st : MachineState) : Prop :=
  st.memptr < st.memory.length ∧ ∀ v ∈ st.memory, v ≤ 255

/-- Number of opening loop instructions in a character list. -/
def opens (l : List Char) : Nat := l.count '['

/-- Number of closing loop instructions in a character list. -/
def closes (l : List Char) : Nat := l.count ']'

/-- The sub-program at positions `a ≤ k < b`. -/
def seg (p : List Char) (a b : Nat) : List Char := (p.take b).drop a

/-- Bracket balance of the sub-program at positions `a ≤ k < b`. -/
def bal (p : List Char) (a b : Nat) : Int :=
  (opens (seg p a b) : Int) - (closes (seg p a b) : Int)

/-- Position `j` holds the structurally matching `]` of the `[` at position
`i`: the balance over `i..j` inclusive returns to zero exactly at `j`.
Written from the spec: "`j` is the position of the nearest structurally
matching `]`, which lies at a greater position than `i`". -/
def nearestMatchingClose (p : List Char) (i j : Nat) : Prop :=
  i < j ∧ p.get? j = some ']' ∧ bal p i (j + 1) = 0 ∧
    ∀ k, i < k → k < j → ¬(p.get? k = some ']' ∧ bal p i (k + 1) = 0)

/-- Contribution of one instruction to the bracket balance. -/
def brVal (c : Char) : Int := if c = '[' then 1 else if c = ']' then -1 else 0

/-- `i` and `j` are a structurally matched bracket pair: `[` at `i`, `]` at
`j > i`, the balance over `i..j` inclusive is zero, and it stays positive
strictly before `j`. -/
def GoodPair (p : List Char) (i j : Nat) : Prop :=
  i < j ∧ p.get? i = some '[' ∧ p.get? j = some ']' ∧ bal p i (j + 1) = 0 ∧
    ∀ m, i < m → m ≤ j → 1 ≤ bal p i m

/-- Invariant of the validator scan after processing the first `idx`
characters of `p`: the stack holds the pending open brackets (deepest last,
with exact depth accounting), the bracemap holds exactly the matched pairs
both ways with distinct keys, the legal-character counter and the output
flag reflect the processed part, and every processed prefix has nonnegative
balance. -/
structure ScanInv (p : List Char) (idx : Nat) (st : ScanState) : Prop where
  idx_le : idx ≤ p.length
  stack_lt : ∀ j ∈ st.openStack, j < idx
  stack_open : ∀ j ∈ st.openStack, p.get? j = some '['
  stack_depth : ∀ t j, st.openStack.get? t = some j → bal p j idx = t + 1
  stack_min : ∀ j ∈ st.openStack, ∀ m, j < m → m ≤ idx → 1 ≤ bal p j m
  stack_bal : (st.openStack.length : Int) = bal p 0 idx
  bm_pairs : ∀ e ∈ st.bm, ∃ i j, GoodPair p i j ∧ j < idx ∧ (e = (i, j) ∨ e = (j, i))
  bm_sym : ∀ e ∈ st.bm, (e.2, e.1) ∈ st.bm
  bm_keys_nodup : (st.bm.map Prod.fst).Nodup
  stack_fresh : ∀ j ∈ st.openStack, ∀ e ∈ st.bm, j ≠ e.1
  cover_open : ∀ m, m < idx → p.get? m = some '[' →
    m ∈ st.openStack ∨ ∃ e ∈ st.bm, e.1 = m
  cover_close : ∀ m, m < idx → p.get? m = some ']' → ∃ e ∈ st.bm, e.1 = m
  legal_eq : st.legalCount =
    (p.take idx).countP (fun c => legal_instructions.contains c || isPyWs c)
  prints_eq : st.prints = true ↔ '.' ∈ p.take idx
  pref_nonneg : ∀ m, m ≤ idx → 0 ≤ bal p 0 m

/-- Pure modulo-256 prediction for a program of `+`, `-` and `.` only:
starting from cell value `v`, the list of emitted bytes.
Written from the spec: "any sequence of increments/decrements followed by
output instructions must yield the exact byte sequence predicted by pure
modulo-256 arithmetic". -/
def pmSpec : List Char → Nat → List Nat
  | [], _ => []
  | c :: rest, v =>
    if c == '+' then pmSpec rest ((v + 1) % 256)
    else if c == '-' then pmSpec rest ((v + 255) % 256)
    else v :: pmSpec rest v

/-- `pat` occurs as a contiguous substring. -/
def occursIn (pat l : List Char) : Prop := ∃ a b, l = a ++ pat ++ b

/-- Boolean test: `l` starts with `pat`. -/
def startsList : List Char → List Char → Bool
  | [], _ => true
  | _ :: _, [] => false
  | p :: ps, c :: cs => p == c && startsList ps cs

/-- Boolean test: `pat` occurs as a contiguous substring of `l`. -/
def subList (pat : List Char) : List Char → Bool
  | [] => startsList pat []
  | c :: cs => startsList pat (c :: cs) || subList pat cs

/-- Token list: no whitespace character occurs in it. -/
def wsFree (t : List Char) : Prop := ∀ c ∈ t, isPyWs c = false

/-- The three Ook token markers, lower-cased. -/
def ookDotTok : List Char := "ook.".toList

def ookBangTok : List Char := "ook!".toList

def ookQTok : List Char := "ook?".toList

/-- The token stream of claim C1: 65 repetitions of the pair mapped to `+`
(at the source's `ook_map`, the pair `ook. ook.`) followed by one instance
of the pair mapped to `.` (the pair `ook! ook.`). -/
def c1Tokens : List (List Char) :=
  List.replicate 130 ookDotTok ++ [ookBangTok, ookDotTok]

/-- The transpiled program of claim C1: 65 increments and one output. -/
def c1Prog : List Char := List.replicate 65 '+' ++ ['.']

/-- A canonical input text whose token stream is `c1Tokens`. -/
def c1Canonical : String := "Ook. Ook. Ook. Ook. Ook. Ook. Ook. Ook. Ook. Ook. Ook. Ook. Ook. Ook. Ook. Ook. Ook. Ook. Ook. Ook. Ook. Ook. Ook. Ook. Ook. Ook. Ook. Ook. Ook. Ook. Ook. Ook. Ook. Ook. Ook. Ook. Ook. Ook. Ook. Ook. Ook. Ook. Ook. Ook. Ook. Ook. Ook. Ook. Ook. Ook. Ook. Ook. Ook. Ook. Ook. Ook. Ook. Ook. Ook. Ook. Ook. Ook. Ook. Ook. Ook. Ook. Ook. Ook. Ook. Ook. Ook. Ook. Ook. Ook. Ook. Ook. Ook. Ook. Ook. Ook. Ook. Ook. Ook. Ook. Ook. Ook. Ook. Ook. Ook. Ook. Ook. Ook. Ook. Ook. Ook. Ook. Ook. Ook. Ook. Ook. Ook. Ook. Ook. Ook. Ook. Ook. Ook. Ook. Ook. Ook. Ook. Ook. Ook. Ook. Ook. Ook. Ook. Ook. Ook. Ook. Ook. Ook. Ook. Ook. Ook. Ook. Ook. Ook. Ook. Ook. Ook! Ook."

/-! ### Basic facts about the interpreter loop -/

/-- Under a clock that never exceeds the limit, the loop behaves as if the
time check were absent. -/
theorem run_eq_runNT (elapsed : Nat → ℚ) (prog : List Char) (bm : List (Nat × Nat))
    (h : ∀ n, elapsed n ≤ timelimit) :
    ∀ fuel stepIdx st, run elapsed prog bm fuel stepIdx st = runNT prog bm fuel st := by
  intro fuel
  induction fuel with
  | zero => intro stepIdx st; rfl
  | succ f ih =>
    intro stepIdx st
    rw [run, runNT]
    by_cases hc : st.codeptr < prog.length
    · simp only [if_pos hc]
      have hnt : ¬ elapsed stepIdx > timelimit := not_lt.mpr (h stepIdx)
      simp only [if_neg hnt]
      cases execStep prog bm st with
      | fault => rfl
      | cont st' => exact ih (stepIdx + 1) st'
    · simp only [if_neg hc]

/-- Fuel monotonicity: once the clock-free loop terminates with a definite
answer, more fuel does not change that answer. -/
theorem runNT_mono (prog : List Char) (bm : List (Nat × Nat)) :
    ∀ fuel st, runNT prog bm fuel st ≠ .fuelOut →
      ∀ g, fuel ≤ g → runNT prog bm g st = runNT prog bm fuel st := by
  intro fuel
  induction fuel with
  | zero => intro st h; exact absurd rfl h
  | succ f ih =>
    intro st h g hg
    obtain ⟨g', rfl⟩ : ∃ g', g = g' + 1 := ⟨g - 1, by omega⟩
    rw [runNT] at h ⊢
    rw [runNT]
    by_cases hc : st.codeptr < prog.length
    · simp only [if_pos hc] at h ⊢
      cases hst : execStep prog bm st with
      | fault => simp [hst]
      | cont st' =>
        simp only [hst] at h ⊢
        exact ih st' h g' (by omega)
    · simp only [if_neg hc]

/-! ### Characterization of a single interpreter step -/

theorem exec_plus {prog : List Char} {bm : List (Nat × Nat)} {st : MachineState} {v : Nat}
    (h1 : prog.get? st.codeptr = some '+') (h2 : st.memory.get? st.memptr = some v) :
    execStep prog bm st =
      .cont { st with memory := st.memory.set st.memptr (if v < 255 then v + 1 else 0),
                      codeptr := st.codeptr + 1 } := by
  simp only [List.get?_eq_getElem?] at h1 h2
  simp [execStep, h1, h2]

theorem exec_minus {prog : List Char} {bm : List (Nat × Nat)} {st : MachineState} {v : Nat}
    (h1 : prog.get? st.codeptr = some '-') (h2 : st.memory.get? st.memptr = some v) :
    execStep prog bm st =
      .cont { st with memory := st.memory.set st.memptr (if v > 0 then v - 1 else 255),
                      codeptr := st.codeptr + 1 } := by
  simp only [List.get?_eq_getElem?] at h1 h2
  simp [execStep, h1, h2]

theorem exec_right {prog : List Char} {bm : List (Nat × Nat)} {st : MachineState}
    (h1 : prog.get? st.codeptr = some '>') :
    execStep prog bm st =
      .cont { st with memory := if (st.memptr : Int) = (st.memory.length : Int) - 1
                        then st.memory ++ [0] else st.memory,
                      memptr := st.memptr + 1, codeptr := st.codeptr + 1 } := by
  simp only [List.get?_eq_getElem?] at h1
  simp [execStep, h1]

theorem exec_left {prog : List Char} {bm : List (Nat × Nat)} {st : MachineState}
    (h1 : prog.get? st.codeptr = some '<') :
    execStep prog bm st =
      .cont { st with memptr := if st.memptr == 0 then st.memory.length - 1 else st.memptr - 1,
                      codeptr := st.codeptr + 1 } := by
  simp only [List.get?_eq_getElem?] at h1
  simp [execStep, h1]

theorem exec_open_taken {prog : List Char} {bm : List (Nat × Nat)} {st : MachineState}
    {target : Nat} (h1 : prog.get? st.codeptr = some '[')
    (h2 : st.memory.get? st.memptr = some 0) (h3 : bm.lookup st.codeptr = some target) :
    execStep prog bm st = .cont { st with codeptr := target + 1 } := by
  simp only [List.get?_eq_getElem?] at h1 h2
  simp [execStep, h1, h2, h3]

theorem exec_open_skip {prog : List Char} {bm : List (Nat × Nat)} {st : MachineState} {v : Nat}
    (h1 : prog.get? st.codeptr = some '[')
    (h2 : st.memory.get? st.memptr = some v) (hv : v ≠ 0) :
    execStep prog bm st = .cont { st with codeptr := st.codeptr + 1 } := by
  simp only [List.get?_eq_getElem?] at h1 h2
  simp [execStep, h1, h2, hv]

theorem exec_close_taken {prog : List Char} {bm : List (Nat × Nat)} {st : MachineState}
    {v target : Nat} (h1 : prog.get? st.codeptr = some ']')
    (h2 : st.memory.get? st.memptr = some v) (hv : v ≠ 0)
    (h3 : bm.lookup st.codeptr = some target) :
    execStep prog bm st = .cont { st with codeptr := target + 1 } := by
  simp only [List.get?_eq_getElem?] at h1 h2
  simp [execStep, h1, h2, hv, h3]

theorem exec_close_skip {prog : List Char} {bm : List (Nat × Nat)} {st : MachineState}
    (h1 : prog.get? st.codeptr = some ']') (h2 : st.memory.get? st.memptr = some 0) :
    execStep prog bm st = .cont { st with codeptr := st.codeptr + 1 } := by
  simp only [List.get?_eq_getElem?] at h1 h2
  simp [execStep, h1, h2]

theorem exec_out {prog : List Char} {bm : List (Nat × Nat)} {st : MachineState} {v : Nat}
    (h1 : prog.get? st.codeptr = some '.')
    (h2 : st.memory.get? st.memptr = some v) (hv : v < 1114112) :
    execStep prog bm st =
      .cont { st with result := st.result ++ [v], codeptr := st.codeptr + 1 } := by
  simp only [List.get?_eq_getElem?] at h1 h2
  simp [execStep, h1, h2, hv]

theorem exec_in {prog : List Char} {bm : List (Nat × Nat)} {st : MachineState}
    (h1 : prog.get? st.codeptr = some ',') (h2 : st.memptr < st.memory.length) :
    execStep prog bm st =
      .cont { st with memory := st.memory.set st.memptr 0, codeptr := st.codeptr + 1 } := by
  simp only [List.get?_eq_getElem?] at h1
  simp [execStep, h1, h2]

theorem exec_other {prog : List Char} {bm : List (Nat × Nat)} {st : MachineState} {cmd : Char}
    (h1 : prog.get? st.codeptr = some cmd) (h2 : cmd ∉ legal_instructions) :
    execStep prog bm st = .cont { st with codeptr := st.codeptr + 1 } := by
  simp only [legal_instructions, List.mem_cons, List.not_mem_nil, or_false, not_or] at h2
  obtain ⟨n1, n2, n3, n4, n5, n6, n7, n8⟩ := h2
  simp only [List.get?_eq_getElem?] at h1
  simp [execStep, h1, n1, n2, n3, n4, n5, n6, n7, n8]

/-! ### The memory-safety invariant of the tape machine -/

theorem goodState_initial : GoodState initialState := by
  constructor
  · simp [initialState, initialMemory]
  · intro v hv
    simp [initialState, initialMemory] at hv
    omega

theorem execStep_preserves_good {prog : List Char} {bm : List (Nat × Nat)}
    {st st' : MachineState} (hg : GoodState st)
    (h : execStep prog bm st = .cont st') : GoodState st' := by
  obtain ⟨hptr, hcells⟩ := hg
  have hlen : 0 < st.memory.length := Nat.lt_of_le_of_lt (Nat.zero_le _) hptr
  cases hcmd : prog.get? st.codeptr with
  | none => simp only [execStep, List.get?_eq_getElem? ] at h hcmd; rw [hcmd] at h; cases h
  | some cmd =>
    have hv : st.memory.get? st.memptr = some (st.memory.get ⟨st.memptr, hptr⟩) :=
      List.get?_eq_get hptr
    have hvmem : st.memory.get ⟨st.memptr, hptr⟩ ∈ st.memory :=
      List.get_mem st.memory st.memptr hptr
    have hvle : st.memory.get ⟨st.memptr, hptr⟩ ≤ 255 := hcells _ hvmem
    set v := st.memory.get ⟨st.memptr, hptr⟩ with hvdef
    have setGood : ∀ w, w ≤ 255 →
        GoodState { st with memory := st.memory.set st.memptr w,
                            codeptr := st.codeptr + 1 } := by
      intro w hw
      refine ⟨by simpa using hptr, ?_⟩
      intro x hx
      rcases List.mem_or_eq_of_mem_set hx with hx' | rfl
      · exact hcells _ hx'
      · exact hw
    by_cases c1 : cmd = '+'
    · subst c1
      rw [exec_plus hcmd hv] at h
      cases h
      exact setGood _ (by split <;> omega)
    · by_cases c2 : cmd = '-'
      · subst c2
        rw [exec_minus hcmd hv] at h
        cases h
        exact setGood _ (by split <;> omega)
      · by_cases c3 : cmd = '>'
        · subst c3
          rw [exec_right hcmd] at h
          cases h
          constructor
          · by_cases he : (st.memptr : Int) = (st.memory.length : Int) - 1
            · simp only [he, if_pos]
              simp only [List.length_append, List.length_cons, List.length_nil]
              omega
            · simp only [if_neg he]
              show st.memptr + 1 < st.memory.length
              omega
          · intro x hx
            by_cases he : (st.memptr : Int) = (st.memory.length : Int) - 1
            · simp only [he, if_pos] at hx
              rcases List.mem_append.mp hx with hx' | hx'
              · exact hcells _ hx'
              · simp at hx'; omega
            · simp only [if_neg he] at hx
              exact hcells _ hx
        · by_cases c4 : cmd = '<'
          · subst c4
            rw [exec_left hcmd] at h
            cases h
            refine ⟨?_, hcells⟩
            by_cases he : st.memptr = 0
            · simp [he]; omega
            · simp [he]; omega
          · by_cases c5 : cmd = '['
            · subst c5
              by_cases hz : v = 0
              · rw [hz] at hv
                cases h3 : bm.lookup st.codeptr with
                | none =>
                  rw [execStep, List.get?_eq_getElem? ] at h
                  rw [List.get?_eq_getElem? ] at hcmd hv
                  simp [hcmd, hv, h3] at h
                | some target =>
                  rw [exec_open_taken hcmd hv h3] at h
                  cases h
                  exact ⟨hptr, hcells⟩
              · rw [exec_open_skip hcmd hv hz] at h
                cases h
                exact ⟨hptr, hcells⟩
            · by_cases c6 : cmd = ']'
              · subst c6
                by_cases hz : v = 0
                · rw [hz] at hv
                  rw [exec_close_skip hcmd hv] at h
                  cases h
                  exact ⟨hptr, hcells⟩
                · cases h3 : bm.lookup st.codeptr with
                  | none =>
                    rw [execStep, List.get?_eq_getElem? ] at h
                    rw [List.get?_eq_getElem? ] at hcmd hv
                    simp [hcmd, hv, h3, hz] at h
                  | some target =>
                    rw [exec_close_taken hcmd hv hz h3] at h
                    cases h
                    exact ⟨hptr, hcells⟩
              · by_cases c7 : cmd = '.'
                · subst c7
                  rw [exec_out hcmd hv (by omega)] at h
                  cases h
                  exact ⟨hptr, hcells⟩
                · by_cases c8 : cmd = ','
                  · subst c8
                    rw [exec_in hcmd hptr] at h
                    cases h
                    exact setGood 0 (by omega)
                  · rw [exec_other hcmd (by simp [legal_instructions, c1, c2, c3, c4, c5, c6, c7, c8])] at h
                    cases h
                    exact ⟨hptr, hcells⟩

/-- With a good state and the instruction pointer in range, a step can fault
only on a bracket instruction whose bracemap key is missing: tape reads,
tape writes and the `chr` conversion never fault. -/
theorem execStep_fault_char {prog : List Char} {bm : List (Nat × Nat)}
    {st : MachineState} (hg : GoodState st) (hcp : st.codeptr < prog.length)
    (h : execStep prog bm st = .fault) :
    (prog.get? st.codeptr = some '[' ∨ prog.get? st.codeptr = some ']') ∧
      bm.lookup st.codeptr = none := by
  obtain ⟨hptr, hcells⟩ := hg
  cases hcmd : prog.get? st.codeptr with
  | none => rw [List.get?_eq_getElem? ] at hcmd; simp [List.getElem?_eq_none_iff] at hcmd; omega
  | some cmd =>
    have hv : st.memory.get? st.memptr = some (st.memory.get ⟨st.memptr, hptr⟩) :=
      List.get?_eq_get hptr
    have hvle : st.memory.get ⟨st.memptr, hptr⟩ ≤ 255 :=
      hcells _ (List.get_mem st.memory st.memptr hptr)
    set v := st.memory.get ⟨st.memptr, hptr⟩ with hvdef
    by_cases c1 : cmd = '+'
    · subst c1; rw [exec_plus hcmd hv] at h; cases h
    · by_cases c2 : cmd = '-'
      · subst c2; rw [exec_minus hcmd hv] at h; cases h
      · by_cases c3 : cmd = '>'
        · subst c3; rw [exec_right hcmd] at h; cases h
        · by_cases c4 : cmd = '<'
          · subst c4; rw [exec_left hcmd] at h; cases h
          · by_cases c5 : cmd = '['
            · subst c5
              refine ⟨Or.inl rfl, ?_⟩
              cases h3 : bm.lookup st.codeptr with
              | none => rfl
              | some target =>
                by_cases hz : v = 0
                · rw [hz] at hv; rw [exec_open_taken hcmd hv h3] at h; cases h
                · rw [exec_open_skip hcmd hv hz] at h; cases h
            · by_cases c6 : cmd = ']'
              · subst c6
                refine ⟨Or.inr rfl, ?_⟩
                cases h3 : bm.lookup st.codeptr with
                | none => rfl
                | some target =>
                  by_cases hz : v = 0
                  · rw [hz] at hv; rw [exec_close_skip hcmd hv] at h; cases h
                  · rw [exec_close_taken hcmd hv hz h3] at h; cases h
              · by_cases c7 : cmd = '.'
                · subst c7; rw [exec_out hcmd hv (by omega)] at h; cases h
                · by_cases c8 : cmd = ','
                  · subst c8; rw [exec_in hcmd hptr] at h; cases h
                  · rw [exec_other hcmd (by simp [legal_instructions, c1, c2, c3, c4, c5, c6, c7, c8])] at h
                    cases h

/-- The interpreter loop never faults when every bracket position of the
program has a bracemap key and the state is good. -/
theorem run_no_fault (elapsed : Nat → ℚ) (prog : List Char) (bm : List (Nat × Nat))
    (hcov : ∀ i, i < prog.length →
      (prog.get? i = some '[' ∨ prog.get? i = some ']') → (bm.lookup i).isSome) :
    ∀ fuel stepIdx st, GoodState st → run elapsed prog bm fuel stepIdx st ≠ .fault := by
  intro fuel
  induction fuel with
  | zero => intro stepIdx st _; rw [run]; exact fun h => by cases h
  | succ f ih =>
    intro stepIdx st hg
    rw [run]
    by_cases hc : st.codeptr < prog.length
    · simp only [if_pos hc]
      by_cases ht : elapsed stepIdx > timelimit
      · simp only [if_pos ht]; exact fun h => by cases h
      · simp only [if_neg ht]
        cases hs : execStep prog bm st with
        | fault =>
          obtain ⟨hbr, hnone⟩ := execStep_fault_char hg hc hs
          have := hcov st.codeptr hc hbr
          rw [hnone] at this
          cases this
        | cont st' => exact ih (stepIdx + 1) st' (execStep_preserves_good hg hs)
    · simp only [if_neg hc]
      exact fun h => by cases h

/-- Once all clock readings exceed the limit, bounded fuel suffices for the
loop to produce a definite outcome (it cannot run out of fuel). -/
theorem run_definite (elapsed : Nat → ℚ) (prog : List Char) (bm : List (Nat × Nat))
    (N : Nat) (h : ∀ n, N ≤ n → elapsed n > timelimit) :
    ∀ fuel stepIdx st, 1 ≤ fuel → N ≤ stepIdx + fuel - 1 →
      run elapsed prog bm fuel stepIdx st ≠ .fuelOut := by
  intro fuel
  induction fuel with
  | zero => intro _ _ h1; omega
  | succ f ih =>
    intro stepIdx st _ hN
    rw [run]
    by_cases hc : st.codeptr < prog.length
    · simp only [if_pos hc]
      by_cases ht : elapsed stepIdx > timelimit
      · simp only [if_pos ht]; exact fun h => by cases h
      · simp only [if_neg ht]
        have hlt : stepIdx < N := by
          by_contra hge
          exact ht (h stepIdx (by omega))
        cases hs : execStep prog bm st with
        | fault => exact fun h => by cases h
        | cont st' => exact ih (stepIdx + 1) st' (by omega) (by omega)
    · simp only [if_neg hc]
      exact fun h => by cases h

/-- Unfolding step for the clock-free loop on a successful step. -/
theorem runNT_cont {prog : List Char} {bm : List (Nat × Nat)} {fuel : Nat}
    {st st' : MachineState} (hguard : st.codeptr < prog.length)
    (h : execStep prog bm st = .cont st') :
    runNT prog bm (fuel + 1) st = runNT prog bm fuel st' := by
  rw [runNT, if_pos hguard, h]

/-- Unfolding step for the clock-free loop at termination. -/
theorem runNT_stop {prog : List Char} {bm : List (Nat × Nat)} {fuel : Nat}
    {st : MachineState} (hguard : ¬ st.codeptr < prog.length) :
    runNT prog bm (fuel + 1) st = .ok st.result := by
  rw [runNT, if_neg hguard]

/-! ### Modulo-256 arithmetic of `+` and `-` -/

theorem inc_wrap_eq_mod (v : Nat) (h : v ≤ 255) :
    (if v < 255 then v + 1 else 0) = (v + 1) % 256 := by
  split <;> omega

theorem dec_wrap_eq_mod (v : Nat) (h : v ≤ 255) :
    (if v > 0 then v - 1 else 255) = (v + 255) % 256 := by
  split <;> omega

/-- Executing a program built from `+`, `-` and `.` only emits exactly the
bytes predicted by pure modulo-256 arithmetic on the initial cell. -/
theorem runNT_pm (bm : List (Nat × Nat)) :
    ∀ (rest pre : List Char) (st : MachineState) (fuel v : Nat),
      (∀ c ∈ rest, c = '+' ∨ c = '-' ∨ c = '.') →
      st.codeptr = pre.length → st.memptr = 0 →
      st.memory.get? 0 = some v → v ≤ 255 →
      rest.length < fuel →
      runNT (pre ++ rest) bm fuel st = .ok (st.result ++ pmSpec rest v) := by
  intro rest
  induction rest with
  | nil =>
    intro pre st fuel v _ hcp _ _ _ hfuel
    obtain ⟨f, rfl⟩ : ∃ f, fuel = f + 1 := ⟨fuel - 1, by omega⟩
    have hng : ¬ st.codeptr < (pre ++ ([] : List Char)).length := by
      simp [hcp]
    rw [runNT_stop hng]
    simp [pmSpec]
  | cons c rest' ih =>
    intro pre st fuel v hall hcp hmp hv hvle hfuel
    obtain ⟨f, rfl⟩ : ∃ f, fuel = f + 1 := ⟨fuel - 1, by omega⟩
    have hlen0 : 0 < st.memory.length := by
      obtain ⟨h1, -⟩ := List.get?_eq_some.mp hv
      omega
    have hcmd : (pre ++ c :: rest').get? st.codeptr = some c := by
      rw [hcp, List.get?_append_right (le_refl _)]
      simp
    have hv0 : st.memory.get? st.memptr = some v := by rw [hmp]; exact hv
    have hguard : st.codeptr < (pre ++ c :: rest').length := by
      simp [hcp]
    have hfuel' : rest'.length < f := by
      simp only [List.length_cons] at hfuel; omega
    have hallr : ∀ x ∈ rest', x = '+' ∨ x = '-' ∨ x = '.' :=
      fun x hx => hall x (List.mem_cons_of_mem _ hx)
    rcases hall c (List.mem_cons_self c rest') with rfl | rfl | rfl
    · have ihres := ih (pre ++ ['+'])
        { st with memory := st.memory.set st.memptr (if v < 255 then v + 1 else 0),
                  codeptr := st.codeptr + 1 }
        f ((v + 1) % 256) hallr (by simp [hcp]) (by simp [hmp])
        (by show (st.memory.set st.memptr _).get? 0 = _
            rw [hmp, List.get?_set_eq_of_lt _ hlen0, inc_wrap_eq_mod v hvle])
        (by omega) hfuel'
      rw [List.append_assoc, List.singleton_append] at ihres
      rw [runNT_cont hguard (exec_plus hcmd hv0), ihres]
      simp [pmSpec]
    · have ihres := ih (pre ++ ['-'])
        { st with memory := st.memory.set st.memptr (if v > 0 then v - 1 else 255),
                  codeptr := st.codeptr + 1 }
        f ((v + 255) % 256) hallr (by simp [hcp]) (by simp [hmp])
        (by show (st.memory.set st.memptr _).get? 0 = _
            rw [hmp, List.get?_set_eq_of_lt _ hlen0, dec_wrap_eq_mod v hvle])
        (by omega) hfuel'
      rw [List.append_assoc, List.singleton_append] at ihres
      rw [runNT_cont hguard (exec_minus hcmd hv0), ihres]
      simp [pmSpec]
    · have ihres := ih (pre ++ ['.'])
        { st with result := st.result ++ [v], codeptr := st.codeptr + 1 }
        f v hallr (by simp [hcp]) (by simp [hmp]) (by show st.memory.get? 0 = _; exact hv)
        hvle hfuel'
      rw [List.append_assoc, List.singleton_append] at ihres
      rw [runNT_cont hguard (exec_out hcmd hv0 (by omega)), ihres]
      simp [pmSpec]

/-- Any successful step leaves the tape unchanged, appends one zero cell at
the right end, or overwrites one existing cell in place. -/
theorem execStep_memory_shape {prog : List Char} {bm : List (Nat × Nat)}
    {st st' : MachineState} (h : execStep prog bm st = .cont st') :
    st'.memory = st.memory ∨ st'.memory = st.memory ++ [0] ∨
      ∃ i v, st'.memory = st.memory.set i v := by
  rw [execStep] at h
  repeat' split at h
  all_goals first
    | (injection h with h
       subst h
       first
         | exact Or.inl rfl
         | exact Or.inr (Or.inl rfl)
         | exact Or.inr (Or.inr ⟨_, _, rfl⟩))
    | cases h

/-- Executing any instruction other than a loop bracket advances the
instruction pointer by exactly one. -/
theorem execStep_nonjump_codeptr {prog : List Char} {bm : List (Nat × Nat)}
    {st st' : MachineState} {cmd : Char} (h1 : prog.get? st.codeptr = some cmd)
    (h2 : cmd ≠ '[') (h3 : cmd ≠ ']')
    (h : execStep prog bm st = .cont st') : st'.codeptr = st.codeptr + 1 := by
  have memNone : st.memory.get? st.memptr = none → cmd ∈ (['+', '-', '.'] : List Char) → False := by
    intro hv hmem
    rw [execStep, List.get?_eq_getElem? ] at h
    rw [List.get?_eq_getElem? ] at h1
    rw [List.get?_eq_getElem? ] at hv
    fin_cases hmem <;> simp [h1, hv] at h
  by_cases c1 : cmd = '+'
  · subst c1
    cases hv : st.memory.get? st.memptr with
    | none => exact absurd (memNone hv (by simp)) not_false
    | some v => rw [exec_plus h1 hv] at h; cases h; rfl
  · by_cases c2 : cmd = '-'
    · subst c2
      cases hv : st.memory.get? st.memptr with
      | none => exact absurd (memNone hv (by simp)) not_false
      | some v => rw [exec_minus h1 hv] at h; cases h; rfl
    · by_cases c3 : cmd = '>'
      · subst c3; rw [exec_right h1] at h; cases h; rfl
      · by_cases c4 : cmd = '<'
        · subst c4; rw [exec_left h1] at h; cases h; rfl
        · by_cases c7 : cmd = '.'
          · subst c7
            cases hv : st.memory.get? st.memptr with
            | none => exact absurd (memNone hv (by simp)) not_false
            | some v =>
              by_cases hlt : v < 1114112
              · rw [exec_out h1 hv hlt] at h; cases h; rfl
              · rw [execStep, List.get?_eq_getElem? ] at h
                rw [List.get?_eq_getElem? ] at h1
                rw [List.get?_eq_getElem? ] at hv
                simp [h1, hv, hlt] at h
          · by_cases c8 : cmd = ','
            · subst c8
              by_cases hp : st.memptr < st.memory.length
              · rw [exec_in h1 hp] at h; cases h; rfl
              · rw [execStep, List.get?_eq_getElem? ] at h
                rw [List.get?_eq_getElem? ] at h1
                simp [h1, hp] at h
            · rw [exec_other h1
                (by simp [legal_instructions, c1, c2, c3, c4, h2, h3, c7, c8])] at h
              cases h; rfl

/-! ### Claim theorems -/

/-- C3, counterexample: at program `[.]` with cell value 0, the taken jump
lands the instruction pointer at position 3 (the bracemap target 2, plus
one), not at the jump-table target 2 as the claim states. -/
theorem C3_counterexample :
    execStep ['[', '.', ']'] [(0, 2), (2, 0)]
        { memory := [0], codeptr := 0, memptr := 0, result := [] } =
      .cont { memory := [0], codeptr := 3, memptr := 0, result := [] } ∧
    List.lookup 0 [(0, 2), (2, 0)] = some 2 ∧ (3 : Nat) ≠ 2 := by
  decide

/-- C3, amended: a non-jump instruction (including a bracket whose jump is
not taken) advances the instruction pointer by one, and an executed jump
sets the instruction pointer to the jump-table target plus one — the
unconditional final increment of the loop body also applies after a jump. -/
theorem C3_stepping_amended :
    (∀ (prog : List Char) (bm : List (Nat × Nat)) (st st' : MachineState) (cmd : Char),
       prog.get? st.codeptr = some cmd → cmd ≠ '[' → cmd ≠ ']' →
       execStep prog bm st = .cont st' → st'.codeptr = st.codeptr + 1) ∧
    (∀ (prog : List Char) (bm : List (Nat × Nat)) (st : MachineState) (v : Nat),
       prog.get? st.codeptr = some '[' → st.memory.get? st.memptr = some v → v ≠ 0 →
       execStep prog bm st = .cont { st with codeptr := st.codeptr + 1 }) ∧
    (∀ (prog : List Char) (bm : List (Nat × Nat)) (st : MachineState),
       prog.get? st.codeptr = some ']' → st.memory.get? st.memptr = some 0 →
       execStep prog bm st = .cont { st with codeptr := st.codeptr + 1 }) ∧
    (∀ (prog : List Char) (bm : List (Nat × Nat)) (st : MachineState) (target : Nat),
       prog.get? st.codeptr = some '[' → st.memory.get? st.memptr = some 0 →
       bm.lookup st.codeptr = some target →
       execStep prog bm st = .cont { st with codeptr := target + 1 }) ∧
    (∀ (prog : List Char) (bm : List (Nat × Nat)) (st : MachineState) (v target : Nat),
       prog.get? st.codeptr = some ']' → st.memory.get? st.memptr = some v → v ≠ 0 →
       bm.lookup st.codeptr = some target →
       execStep prog bm st = .cont { st with codeptr := target + 1 }) := by
  refine ⟨?_, ?_, ?_, ?_, ?_⟩
  · intro prog bm st st' cmd h1 h2 h3 h
    exact execStep_nonjump_codeptr h1 h2 h3 h
  · intro prog bm st v h1 h2 hv
    exact exec_open_skip h1 h2 hv
  · intro prog bm st h1 h2
    exact exec_close_skip h1 h2
  · intro prog bm st target h1 h2 h3
    exact exec_open_taken h1 h2 h3
  · intro prog bm st v target h1 h2 hv h3
    exact exec_close_taken h1 h2 hv h3

/-- Witness for C3's amended theorem at concrete inputs. -/
theorem C3_stepping_amended_witness :
    (MachineState.mk [1] 1 0 []).codeptr = 0 + 1 ∧
    execStep ['[', '.', ']'] [(0, 2), (2, 0)]
        { memory := [5], codeptr := 0, memptr := 0, result := [] } =
      .cont { memory := [5], codeptr := 1, memptr := 0, result := [] } ∧
    execStep ['[', '.', ']'] [(0, 2), (2, 0)]
        { memory := [0], codeptr := 2, memptr := 0, result := [] } =
      .cont { memory := [0], codeptr := 3, memptr := 0, result := [] } ∧
    execStep ['[', '.', ']'] [(0, 2), (2, 0)]
        { memory := [0], codeptr := 0, memptr := 0, result := [] } =
      .cont { memory := [0], codeptr := 3, memptr := 0, result := [] } ∧
    execStep ['[', '.', ']'] [(0, 2), (2, 0)]
        { memory := [5], codeptr := 2, memptr := 0, result := [] } =
      .cont { memory := [5], codeptr := 1, memptr := 0, result := [] } := by
  refine ⟨?_, ?_, ?_, ?_, ?_⟩
  · exact C3_stepping_amended.1 ['+'] []
      { memory := [0], codeptr := 0, memptr := 0, result := [] }
      (MachineState.mk [1] 1 0 []) '+'
      (by decide) (by decide) (by decide) (by decide)
  · exact C3_stepping_amended.2.1 ['[', '.', ']'] [(0, 2), (2, 0)]
      { memory := [5], codeptr := 0, memptr := 0, result := [] } 5
      (by decide) (by decide) (by decide)
  · exact C3_stepping_amended.2.2.1 ['[', '.', ']'] [(0, 2), (2, 0)]
      { memory := [0], codeptr := 2, memptr := 0, result := [] }
      (by decide) (by decide)
  · exact C3_stepping_amended.2.2.2.1 ['[', '.', ']'] [(0, 2), (2, 0)]
      { memory := [0], codeptr := 0, memptr := 0, result := [] } 2
      (by decide) (by decide) (by decide)
  · exact C3_stepping_amended.2.2.2.2 ['[', '.', ']'] [(0, 2), (2, 0)]
      { memory := [5], codeptr := 2, memptr := 0, result := [] } 5 0
      (by decide) (by decide) (by decide) (by decide)

/-- C6: before every step the loop compares the elapsed time with the
60-second limit and, once it is exceeded, aborts with a timeout that carries
no output; `decode` turns the timeout into `None` (all accumulated output is
discarded); and under any clock whose readings from index `N` on exceed the
limit, fuel `N + 1` already yields a definite outcome, so a non-terminating
program cannot hang. -/
theorem C6_deadline_enforcement :
    (∀ (elapsed : Nat → ℚ) (prog : List Char) (bm : List (Nat × Nat))
       (fuel stepIdx : Nat) (st : MachineState),
       st.codeptr < prog.length → elapsed stepIdx > timelimit →
       run elapsed prog bm (fuel + 1) stepIdx st = .timeout) ∧
    RunResult.timeout.toDecodeRes = .result none ∧
    (∀ (elapsed : Nat → ℚ) (prog : List Char) (bm : List (Nat × Nat))
       (N : Nat) (st : MachineState),
       (∀ n, N ≤ n → elapsed n > timelimit) →
       run elapsed prog bm (N + 1) 0 st ≠ .fuelOut) := by
  refine ⟨?_, rfl, ?_⟩
  · intro elapsed prog bm fuel stepIdx st hc ht
    rw [run, if_pos hc, if_pos ht]
  · intro elapsed prog bm N st h
    exact run_definite elapsed prog bm N h (N + 1) 0 st (by omega) (by omega)

/-- Witness for C6 at concrete inputs. -/
theorem C6_witness :
    run (fun _ => 61) ['+'] [] 1 0 initialState = .timeout ∧
    RunResult.timeout.toDecodeRes = .result none ∧
    run (fun _ => 61) ['+'] [] 1 0 initialState ≠ .fuelOut := by
  refine ⟨?_, C6_deadline_enforcement.2.1, ?_⟩
  · exact C6_deadline_enforcement.1 (fun _ => 61) ['+'] [] 0 0 initialState
      (by decide) (show (61 : ℚ) > timelimit by decide)
  · exact C6_deadline_enforcement.2.2 (fun _ => 61) ['+'] [] 0 initialState
      (fun n _ => show (61 : ℚ) > timelimit by decide)

/-- C7: `+` on a cell holding 255 stores 0 and `-` on a cell holding 0
stores 255, both as normal (non-faulting) steps; and running any program of
`+`, `-` and `.` instructions emits exactly the byte sequence predicted by
pure modulo-256 arithmetic. -/
theorem C7_cell_wraparound :
    (∀ (prog : List Char) (bm : List (Nat × Nat)) (st : MachineState),
       prog.get? st.codeptr = some '+' → st.memory.get? st.memptr = some 255 →
       execStep prog bm st =
         .cont { st with memory := st.memory.set st.memptr 0,
                         codeptr := st.codeptr + 1 }) ∧
    (∀ (prog : List Char) (bm : List (Nat × Nat)) (st : MachineState),
       prog.get? st.codeptr = some '-' → st.memory.get? st.memptr = some 0 →
       execStep prog bm st =
         .cont { st with memory := st.memory.set st.memptr 255,
                         codeptr := st.codeptr + 1 }) ∧
    (∀ (p : List Char) (bm : List (Nat × Nat)) (elapsed : Nat → ℚ) (fuel : Nat),
       (∀ c ∈ p, c = '+' ∨ c = '-' ∨ c = '.') →
       (∀ n, elapsed n ≤ timelimit) → p.length < fuel →
       run elapsed p bm fuel 0 initialState = .ok (pmSpec p 0)) := by
  refine ⟨?_, ?_, ?_⟩
  · intro prog bm st h1 h2
    simpa using exec_plus h1 h2
  · intro prog bm st h1 h2
    simpa using exec_minus h1 h2
  · intro p bm elapsed fuel hall hcl hfuel
    rw [run_eq_runNT elapsed p bm hcl]
    have := runNT_pm bm p [] initialState fuel 0 hall rfl rfl (by rfl) (by omega) hfuel
    simpa using this

/-- Witness for C7 at concrete inputs. -/
theorem C7_witness :
    execStep ['+'] [] { memory := [255], codeptr := 0, memptr := 0, result := [] } =
      .cont { memory := ([255] : List Nat).set 0 0, codeptr := 1, memptr := 0, result := [] } ∧
    execStep ['-'] [] { memory := [0], codeptr := 0, memptr := 0, result := [] } =
      .cont { memory := ([0] : List Nat).set 0 255, codeptr := 1, memptr := 0, result := [] } ∧
    run (fun _ => 0) ['+', '.', '-', '-', '.'] [] 6 0 initialState =
      .ok (pmSpec ['+', '.', '-', '-', '.'] 0) := by
  refine ⟨?_, ?_, ?_⟩
  · exact C7_cell_wraparound.1 ['+'] []
      { memory := [255], codeptr := 0, memptr := 0, result := [] } (by decide) (by decide)
  · exact C7_cell_wraparound.2.1 ['-'] []
      { memory := [0], codeptr := 0, memptr := 0, result := [] } (by decide) (by decide)
  · exact C7_cell_wraparound.2.2 ['+', '.', '-', '-', '.'] [] (fun _ => 0) 6
      (by decide) (fun n => show (0 : ℚ) ≤ timelimit by decide) (by decide)

/-- C8: `>` at the last existing cell appends exactly one zero cell and then
advances the pointer; any step either keeps the tape length or appends one
zero cell on the right (the tape never shrinks and only grows rightward);
and `<` at pointer 0 wraps the pointer to the current last cell, leaving the
tape unchanged. -/
theorem C8_tape_growth :
    (∀ (prog : List Char) (bm : List (Nat × Nat)) (st : MachineState),
       prog.get? st.codeptr = some '>' → st.memptr = st.memory.length - 1 →
       0 < st.memory.length →
       execStep prog bm st =
         .cont { st with memory := st.memory ++ [0], memptr := st.memptr + 1,
                         codeptr := st.codeptr + 1 }) ∧
    (∀ (prog : List Char) (bm : List (Nat × Nat)) (st st' : MachineState),
       execStep prog bm st = .cont st' →
       st.memory.length ≤ st'.memory.length ∧
         (st'.memory.length = st.memory.length ∨ st'.memory = st.memory ++ [0])) ∧
    (∀ (prog : List Char) (bm : List (Nat × Nat)) (st : MachineState),
       prog.get? st.codeptr = some '<' → st.memptr = 0 →
       execStep prog bm st =
         .cont { st with memptr := st.memory.length - 1,
                         codeptr := st.codeptr + 1 }) := by
  refine ⟨?_, ?_, ?_⟩
  · intro prog bm st h1 h2 h3
    rw [exec_right h1]
    have he : (st.memptr : Int) = (st.memory.length : Int) - 1 := by omega
    rw [if_pos he]
  · intro prog bm st st' h
    rcases execStep_memory_shape h with he | he | ⟨i, v, he⟩
    · rw [he]; exact ⟨le_refl _, Or.inl rfl⟩
    · rw [he]; simp
    · rw [he]; simp
  · intro prog bm st h1 h2
    rw [exec_left h1, h2]
    rfl

/-- Witness for C8 at concrete inputs. -/
theorem C8_witness :
    execStep ['>'] [] { memory := [7], codeptr := 0, memptr := 0, result := [] } =
      .cont { memory := [7] ++ [0], codeptr := 1, memptr := 1, result := [] } ∧
    (([7] : List Nat).length ≤ ([7, 0] : List Nat).length ∧
      (([7, 0] : List Nat).length = ([7] : List Nat).length ∨
        ([7, 0] : List Nat) = [7] ++ [0])) ∧
    execStep ['<'] [] { memory := [3, 4], codeptr := 0, memptr := 0, result := [] } =
      .cont { memory := [3, 4], codeptr := 1, memptr := 1, result := [] } := by
  refine ⟨?_, ?_, ?_⟩
  · exact C8_tape_growth.1 ['>'] []
      { memory := [7], codeptr := 0, memptr := 0, result := [] }
      (by decide) (by decide) (by decide)
  · exact C8_tape_growth.2.1 ['>'] []
      { memory := [7], codeptr := 0, memptr := 0, result := [] }
      { memory := [7, 0], codeptr := 1, memptr := 1, result := [] } (by decide)
  · exact C8_tape_growth.2.2 ['<'] []
      { memory := [3, 4], codeptr := 0, memptr := 0, result := [] } (by decide) (by decide)

/-- C10: the initial state is good; every successful step preserves
the invariant that the tape pointer is in bounds and every cell holds a
byte; and under that invariant a step with the instruction pointer in range
can fault only on a bracket instruction with no bracemap key — never on a
cell read, a cell write, or the `chr` conversion. -/
theorem C10_memory_safety :
    GoodState initialState ∧
    (∀ (prog : List Char) (bm : List (Nat × Nat)) (st st' : MachineState),
       GoodState st → execStep prog bm st = .cont st' → GoodState st') ∧
    (∀ (prog : List Char) (bm : List (Nat × Nat)) (st : MachineState),
       GoodState st → st.codeptr < prog.length → execStep prog bm st = .fault →
       (prog.get? st.codeptr = some '[' ∨ prog.get? st.codeptr = some ']') ∧
         bm.lookup st.codeptr = none) :=
  ⟨goodState_initial,
   fun _ _ _ _ hg h => execStep_preserves_good hg h,
   fun _ _ _ hg hc h => execStep_fault_char hg hc h⟩

/-- Witness for C10 at concrete inputs. -/
theorem C10_witness :
    GoodState { memory := ([7] : List Nat).set 0 8, codeptr := 1, memptr := 0, result := [] } ∧
    ((((['['] : List Char).get? 0 = some '[') ∨ ((['['] : List Char).get? 0 = some ']')) ∧
      List.lookup 0 ([] : List (Nat × Nat)) = none) := by
  constructor
  · exact C10_memory_safety.2.1 ['+'] []
      { memory := [7], codeptr := 0, memptr := 0, result := [] }
      { memory := ([7] : List Nat).set 0 8, codeptr := 1, memptr := 0, result := [] }
      (by constructor <;> simp) (by decide)
  · exact C10_memory_safety.2.2 ['['] []
      { memory := [0], codeptr := 0, memptr := 0, result := [] }
      (by constructor <;> simp) (by decide) (by decide)

/-! ### Bracket-balance arithmetic -/

theorem seg_self (p : List Char) (a : Nat) : seg p a a = [] := by
  apply List.drop_eq_nil_of_le
  simp [List.length_take]

theorem bal_self (p : List Char) (a : Nat) : bal p a a = 0 := by
  simp [bal, seg_self, opens, closes]

theorem seg_zero (p : List Char) (b : Nat) : seg p 0 b = p.take b := by
  simp [seg]

theorem seg_succ {p : List Char} {m : Nat} {c : Char} (a : Nat) (ham : a ≤ m)
    (hc : p.get? m = some c) : seg p a (m + 1) = seg p a m ++ [c] := by
  have hm : m < p.length := by
    rw [List.get?_eq_getElem? ] at hc
    exact (List.getElem?_eq_some_iff.mp hc).1
  unfold seg
  rw [List.take_succ, List.get?_eq_getElem? ] at *
  rw [hc]
  rw [List.drop_append_of_le_length (by simp [List.length_take]; omega)]
  rfl

theorem bal_succ {p : List Char} {m : Nat} {c : Char} (a : Nat) (ham : a ≤ m)
    (hc : p.get? m = some c) : bal p a (m + 1) = bal p a m + brVal c := by
  unfold bal brVal
  rw [seg_succ a ham hc]
  unfold opens closes
  rw [List.count_append, List.count_append]
  by_cases h1 : c = '['
  · subst h1
    rw [(by decide : List.count '[' (['['] : List Char) = 1),
        (by decide : List.count ']' (['['] : List Char) = 0),
        if_pos rfl]
    push_cast
    ring
  · by_cases h2 : c = ']'
    · subst h2
      rw [(by decide : List.count '[' ([']'] : List Char) = 0),
          (by decide : List.count ']' ([']'] : List Char) = 1),
          if_neg h1, if_pos rfl]
      push_cast
      ring
    · have e1 : List.count '[' ([c] : List Char) = 0 := by
        simp [List.count_cons]
        exact fun hcc => h1 hcc
      have e2 : List.count ']' ([c] : List Char) = 0 := by
        simp [List.count_cons]
        exact fun hcc => h2 hcc
      rw [e1, e2, if_neg h1, if_neg h2]
      push_cast
      ring

/-- The balance of a fully taken prefix is the balance of the list itself. -/
theorem bal_full (p : List Char) : bal p 0 p.length = (opens p : Int) - closes p := by
  unfold bal
  rw [seg_zero, List.take_length]

/-! ### Association list lookups -/

theorem lookup_mem {l : List (Nat × Nat)} {k v : Nat}
    (h : List.lookup k l = some v) : (k, v) ∈ l := by
  induction l with
  | nil => cases h
  | cons e rest ih =>
    rw [List.lookup] at h
    cases he : (k == e.1) with
    | true =>
      simp only [he] at h
      cases h
      have hk : k = e.1 := by simpa using he
      rw [hk]
      left
    | false =>
      simp only [he] at h
      exact List.mem_cons_of_mem _ (ih h)

theorem mem_lookup_of_nodup {l : List (Nat × Nat)} {k v : Nat}
    (hnd : (l.map Prod.fst).Nodup) (h : (k, v) ∈ l) : List.lookup k l = some v := by
  induction l with
  | nil => cases h
  | cons e rest ih =>
    rw [List.map_cons, List.nodup_cons] at hnd
    rw [List.lookup]
    rcases List.mem_cons.mp h with heq | hmem
    · subst heq
      simp
    · have hk : k ≠ e.1 := by
        intro hkk
        exact hnd.1 (hkk ▸ List.mem_map_of_mem Prod.fst hmem)
      have hk' : (k == e.1) = false := by simpa using hk
      simp only [hk']
      exact ih hnd.2 hmem

theorem lookup_isSome_of_mem_fst {l : List (Nat × Nat)} {k : Nat}
    (h : ∃ e ∈ l, e.1 = k) : (List.lookup k l).isSome := by
  induction l with
  | nil =>
    rcases h with ⟨a, ha, -⟩
    cases ha
  | cons e rest ih =>
    rw [List.lookup]
    cases he : (k == e.1) with
    | true => simp only [he]; rfl
    | false =>
      simp only [he]
      rcases h with ⟨a, ha, hak⟩
      rcases List.mem_cons.mp ha with heq | hmem
      · rw [heq] at hak
        rw [show k = e.1 from hak.symm] at he
        simp at he
      · exact ih ⟨a, hmem, hak⟩

/-! ### Characterization of a single validator scan step -/
theorem scanStep_dot {st : ScanState} {idx : Nat} (hp : st.prints = false) :
    scanStep idx '.' st = some { st with prints := true, legalCount := st.legalCount + 1 } := by
  simp +decide [scanStep, hp]

theorem scanStep_open {st : ScanState} {idx : Nat} :
    scanStep idx '[' st =
      some { st with openStack := idx :: st.openStack, legalCount := st.legalCount + 1 } := by
  simp +decide [scanStep]

theorem scanStep_close_nil {st : ScanState} {idx : Nat} (hs : st.openStack = []) :
    scanStep idx ']' st = none := by
  simp +decide [scanStep, hs]

theorem scanStep_close_cons {st : ScanState} {idx op : Nat} {restStack : List Nat}
    (hs : st.openStack = op :: restStack) :
    scanStep idx ']' st =
      some { st with openStack := restStack,
                     bm := (idx, op) :: (op, idx) :: st.bm,
                     legalCount := st.legalCount + 1 } := by
  simp +decide [scanStep, hs]

theorem scanStep_other {st : ScanState} {idx : Nat} {c : Char}
    (h1 : c ≠ '[') (h2 : c ≠ ']') (h3 : c = '.' → st.prints = true) :
    scanStep idx c st =
      some { st with legalCount := st.legalCount +
        (if legal_instructions.contains c || isPyWs c then 1 else 0) } := by
  by_cases hdot : c = '.'
  · subst hdot
    simp +decide [scanStep, h3 rfl]
  · simp [scanStep, h1, h2, hdot]
    split <;> simp

/-! ### Helper consequences of the scan invariant -/

theorem ScanInv.stack_pos {p : List Char} {idx : Nat} {st : ScanState}
    (inv : ScanInv p idx st) : ∀ j ∈ st.openStack, 1 ≤ bal p j idx := by
  intro j hj
  obtain ⟨t, ht⟩ := List.mem_iff_get?.mp hj
  rw [inv.stack_depth t j ht]
  omega

theorem ScanInv.keys_lt {p : List Char} {idx : Nat} {st : ScanState}
    (inv : ScanInv p idx st) : ∀ e ∈ st.bm, e.1 < idx := by
  intro e he
  obtain ⟨i, j, hg, hj, hcase⟩ := inv.bm_pairs e he
  rcases hcase with rfl | rfl
  · have := hg.1
    simp only []
    omega
  · simpa using hj

theorem scanInv_init (p : List Char) : ScanInv p 0 ⟨[], [], false, 0⟩ where
  idx_le := Nat.zero_le _
  stack_lt := by intro j hj; cases hj
  stack_open := by intro j hj; cases hj
  stack_depth := by intro t j h; cases t <;> cases h
  stack_min := by intro j hj; cases hj
  stack_bal := by simp [bal_self]
  bm_pairs := by intro e he; cases he
  bm_sym := by intro e he; cases he
  bm_keys_nodup := by simp
  stack_fresh := by intro j hj; cases hj
  cover_open := by intro m hm; omega
  cover_close := by intro m hm; omega
  legal_eq := by simp
  prints_eq := by simp
  pref_nonneg := by
    intro m hm
    have : m = 0 := by omega
    rw [this, bal_self]

theorem idx_lt_of_get {p : List Char} {idx : Nat} {c : Char}
    (hc : p.get? idx = some c) : idx < p.length := by
  rw [List.get?_eq_getElem? ] at hc
  exact (List.getElem?_eq_some_iff.mp hc).1

theorem take_succ_of_get {p : List Char} {idx : Nat} {c : Char}
    (hc : p.get? idx = some c) : p.take (idx + 1) = p.take idx ++ [c] := by
  rw [List.take_succ]
  rw [List.get?_eq_getElem? ] at hc
  rw [hc]
  rfl

/-- Preservation of the scan invariant over a non-bracket character. -/
theorem scanInv_nonbracket {p : List Char} {idx : Nat} {st : ScanState} {c : Char}
    (inv : ScanInv p idx st) (hc : p.get? idx = some c)
    (h1 : c ≠ '[') (h2 : c ≠ ']') {st' : ScanState}
    (hstack : st'.openStack = st.openStack) (hbm : st'.bm = st.bm)
    (hlc : st'.legalCount = st.legalCount +
      (if legal_instructions.contains c || isPyWs c then 1 else 0))
    (hpr : st'.prints = true ↔ (st.prints = true ∨ c = '.')) :
    ScanInv p (idx + 1) st' := by
  have hlt : idx < p.length := idx_lt_of_get hc
  have hb0 : brVal c = 0 := by simp [brVal, h1, h2]
  have hbs : ∀ a, a ≤ idx → bal p a (idx + 1) = bal p a idx := by
    intro a ha
    rw [bal_succ a ha hc, hb0, add_zero]
  have htake : p.take (idx + 1) = p.take idx ++ [c] := take_succ_of_get hc
  constructor
  case idx_le => omega
  case stack_lt =>
    rw [hstack]
    intro j hj
    have := inv.stack_lt j hj
    omega
  case stack_open =>
    rw [hstack]
    exact inv.stack_open
  case stack_depth =>
    rw [hstack]
    intro t j ht
    have hjmem : j ∈ st.openStack := List.get?_mem ht
    rw [hbs j (le_of_lt (inv.stack_lt j hjmem))]
    exact inv.stack_depth t j ht
  case stack_min =>
    rw [hstack]
    intro j hj m hm1 hm2
    rcases Nat.lt_or_ge m (idx + 1) with hm | hm
    · exact inv.stack_min j hj m hm1 (by omega)
    · have hmeq : m = idx + 1 := by omega
      subst hmeq
      rw [hbs j (le_of_lt (inv.stack_lt j hj))]
      exact inv.stack_pos j hj
  case stack_bal =>
    rw [hstack, hbs 0 (Nat.zero_le idx)]
    exact inv.stack_bal
  case bm_pairs =>
    rw [hbm]
    intro e he
    obtain ⟨i, j, hg, hj, hcase⟩ := inv.bm_pairs e he
    exact ⟨i, j, hg, by omega, hcase⟩
  case bm_sym =>
    rw [hbm]
    exact inv.bm_sym
  case bm_keys_nodup =>
    rw [hbm]
    exact inv.bm_keys_nodup
  case stack_fresh =>
    rw [hstack, hbm]
    exact inv.stack_fresh
  case cover_open =>
    rw [hstack, hbm]
    intro m hm hopen
    rcases Nat.lt_or_ge m idx with hm' | hm'
    · exact inv.cover_open m hm' hopen
    · have : m = idx := by omega
      subst this
      rw [hc] at hopen
      cases hopen
      exact absurd rfl h1
  case cover_close =>
    rw [hbm]
    intro m hm hclose
    rcases Nat.lt_or_ge m idx with hm' | hm'
    · exact inv.cover_close m hm' hclose
    · have : m = idx := by omega
      subst this
      rw [hc] at hclose
      cases hclose
      exact absurd rfl h2
  case legal_eq =>
    rw [hlc, inv.legal_eq, htake, List.countP_append]
    simp [List.countP_cons]
  case prints_eq =>
    rw [hpr, inv.prints_eq, htake]
    simp [List.mem_append, eq_comm]
  case pref_nonneg =>
    intro m hm
    rcases Nat.lt_or_ge m (idx + 1) with hm' | hm'
    · exact inv.pref_nonneg m (by omega)
    · have : m = idx + 1 := by omega
      subst this
      rw [hbs 0 (Nat.zero_le idx)]
      exact inv.pref_nonneg idx (le_refl idx)

/-- Preservation of the scan invariant over an opening bracket (push). -/
theorem scanInv_open {p : List Char} {idx : Nat} {st : ScanState}
    (inv : ScanInv p idx st) (hc : p.get? idx = some '[') :
    ScanInv p (idx + 1)
      { st with openStack := idx :: st.openStack, legalCount := st.legalCount + 1 } := by
  have hlt : idx < p.length := idx_lt_of_get hc
  have hbs : ∀ a, a ≤ idx → bal p a (idx + 1) = bal p a idx + 1 := by
    intro a ha
    rw [bal_succ a ha hc]
    simp [brVal]
  have htake : p.take (idx + 1) = p.take idx ++ ['['] := take_succ_of_get hc
  constructor
  case idx_le => omega
  case stack_lt =>
    intro j hj
    rcases List.mem_cons.mp hj with rfl | hj'
    · omega
    · have := inv.stack_lt j hj'
      omega
  case stack_open =>
    intro j hj
    rcases List.mem_cons.mp hj with rfl | hj'
    · exact hc
    · exact inv.stack_open j hj'
  case stack_depth =>
    intro t j ht
    cases t with
    | zero =>
      rw [List.get?_cons_zero] at ht
      cases ht
      rw [hbs idx (le_refl idx), bal_self]
      simp
    | succ t' =>
      rw [List.get?_cons_succ] at ht
      have hjmem : j ∈ st.openStack := List.get?_mem ht
      rw [hbs j (le_of_lt (inv.stack_lt j hjmem)), inv.stack_depth t' j ht]
      push_cast
      ring
  case stack_min =>
    intro j hj m hm1 hm2
    rcases List.mem_cons.mp hj with rfl | hj'
    · have : m = j + 1 := by omega
      subst this
      rw [hbs j (le_refl j), bal_self]
      omega
    · rcases Nat.lt_or_ge m (idx + 1) with hm | hm
      · exact inv.stack_min j hj' m hm1 (by omega)
      · have : m = idx + 1 := by omega
        subst this
        rw [hbs j (le_of_lt (inv.stack_lt j hj'))]
        have := inv.stack_pos j hj'
        omega
  case stack_bal =>
    rw [hbs 0 (Nat.zero_le idx)]
    have := inv.stack_bal
    simp only [List.length_cons]
    push_cast
    omega
  case bm_pairs =>
    intro e he
    obtain ⟨i, j, hg, hj, hcase⟩ := inv.bm_pairs e he
    exact ⟨i, j, hg, by omega, hcase⟩
  case bm_sym => exact inv.bm_sym
  case bm_keys_nodup => exact inv.bm_keys_nodup
  case stack_fresh =>
    intro j hj e he
    rcases List.mem_cons.mp hj with rfl | hj'
    · have := inv.keys_lt e he
      omega
    · exact inv.stack_fresh j hj' e he
  case cover_open =>
    intro m hm hopen
    rcases Nat.lt_or_ge m idx with hm' | hm'
    · rcases inv.cover_open m hm' hopen with hin | hkey
      · exact Or.inl (List.mem_cons_of_mem _ hin)
      · exact Or.inr hkey
    · have : m = idx := by omega
      subst this
      exact Or.inl (List.mem_cons_self _ _)
  case cover_close =>
    intro m hm hclose
    rcases Nat.lt_or_ge m idx with hm' | hm'
    · exact inv.cover_close m hm' hclose
    · have : m = idx := by omega
      subst this
      rw [hc] at hclose
      cases hclose
  case legal_eq =>
    rw [inv.legal_eq, htake, List.countP_append]
    simp +decide [List.countP_cons]
  case prints_eq =>
    rw [htake]
    simp only [List.mem_append]
    rw [← inv.prints_eq]
    simp
  case pref_nonneg =>
    intro m hm
    rcases Nat.lt_or_ge m (idx + 1) with hm' | hm'
    · exact inv.pref_nonneg m (by omega)
    · have : m = idx + 1 := by omega
      subst this
      rw [hbs 0 (Nat.zero_le idx)]
      have := inv.pref_nonneg idx (le_refl idx)
      omega

/-- Preservation of the scan invariant over a matched closing bracket (pop):
the popped pair is structurally matched and is recorded in both directions. -/
theorem scanInv_close {p : List Char} {idx : Nat} {st : ScanState} {op : Nat}
    {restStack : List Nat} (inv : ScanInv p idx st)
    (hc : p.get? idx = some ']') (hs : st.openStack = op :: restStack) :
    ScanInv p (idx + 1)
      { st with openStack := restStack,
                bm := (idx, op) :: (op, idx) :: st.bm,
                legalCount := st.legalCount + 1 } := by
  have hlt : idx < p.length := idx_lt_of_get hc
  have hbs : ∀ a, a ≤ idx → bal p a (idx + 1) = bal p a idx - 1 := by
    intro a ha
    rw [bal_succ a ha hc]
    simp [brVal]
    ring
  have htake : p.take (idx + 1) = p.take idx ++ [']'] := take_succ_of_get hc
  have hmem_op : op ∈ st.openStack := by rw [hs]; exact List.mem_cons_self _ _
  have hop_lt : op < idx := inv.stack_lt op hmem_op
  have hop_open : p.get? op = some '[' := inv.stack_open op hmem_op
  have hdepth0 : bal p op idx = 1 := by
    have := inv.stack_depth 0 op (by rw [hs]; rfl)
    simpa using this
  have hdepth : ∀ t j, restStack.get? t = some j → bal p j idx = t + 2 := by
    intro t j ht
    have := inv.stack_depth (t + 1) j (by rw [hs, List.get?_cons_succ]; exact ht)
    rw [this]
    push_cast
    ring
  have hrest_mem : ∀ j ∈ restStack, j ∈ st.openStack := by
    intro j hj
    rw [hs]
    exact List.mem_cons_of_mem _ hj
  have hrest_ne_op : ∀ j ∈ restStack, j ≠ op := by
    intro j hj heq
    obtain ⟨t, ht⟩ := List.mem_iff_get?.mp hj
    have h2 := hdepth t j ht
    rw [heq, hdepth0] at h2
    omega
  have hGood : GoodPair p op idx := by
    refine ⟨hop_lt, hop_open, hc, ?_, ?_⟩
    · rw [hbs op (le_of_lt hop_lt), hdepth0]
      ring
    · exact inv.stack_min op hmem_op
  constructor
  case idx_le => omega
  case stack_lt =>
    intro j hj
    have := inv.stack_lt j (hrest_mem j hj)
    omega
  case stack_open =>
    intro j hj
    exact inv.stack_open j (hrest_mem j hj)
  case stack_depth =>
    intro t j ht
    have hj : j ∈ restStack := List.get?_mem ht
    rw [hbs j (le_of_lt (inv.stack_lt j (hrest_mem j hj))), hdepth t j ht]
    ring
  case stack_min =>
    intro j hj m hm1 hm2
    rcases Nat.lt_or_ge m (idx + 1) with hm | hm
    · exact inv.stack_min j (hrest_mem j hj) m hm1 (by omega)
    · have : m = idx + 1 := by omega
      subst this
      rw [hbs j (le_of_lt (inv.stack_lt j (hrest_mem j hj)))]
      obtain ⟨t, ht⟩ := List.mem_iff_get?.mp hj
      have := hdepth t j ht
      omega
  case stack_bal =>
    rw [hbs 0 (Nat.zero_le idx)]
    have hsb := inv.stack_bal
    rw [hs] at hsb
    simp only [List.length_cons] at hsb
    push_cast at hsb ⊢
    omega
  case bm_pairs =>
    intro e he
    rcases List.mem_cons.mp he with rfl | he'
    · exact ⟨op, idx, hGood, by omega, Or.inr rfl⟩
    · rcases List.mem_cons.mp he' with rfl | he''
      · exact ⟨op, idx, hGood, by omega, Or.inl rfl⟩
      · obtain ⟨i, j, hg, hj, hcase⟩ := inv.bm_pairs e he''
        exact ⟨i, j, hg, by omega, hcase⟩
  case bm_sym =>
    intro e he
    rcases List.mem_cons.mp he with rfl | he'
    · exact List.mem_cons_of_mem _ (List.mem_cons_self _ _)
    · rcases List.mem_cons.mp he' with rfl | he''
      · exact List.mem_cons_self _ _
      · exact List.mem_cons_of_mem _
          (List.mem_cons_of_mem _ (inv.bm_sym e he''))
  case bm_keys_nodup =>
    rw [List.map_cons, List.map_cons, List.nodup_cons, List.nodup_cons]
    refine ⟨?_, ?_, inv.bm_keys_nodup⟩
    · intro hin
      rcases List.mem_cons.mp hin with heq | hin'
      · simp only [] at heq
        omega
      · obtain ⟨e, he, hee⟩ := List.mem_map.mp hin'
        have := inv.keys_lt e he
        simp only [] at hee
        omega
    · intro hin
      obtain ⟨e, he, hee⟩ := List.mem_map.mp hin
      exact inv.stack_fresh op hmem_op e he hee.symm
  case stack_fresh =>
    intro j hj e he
    rcases List.mem_cons.mp he with rfl | he'
    · have := inv.stack_lt j (hrest_mem j hj)
      simp only []
      omega
    · rcases List.mem_cons.mp he' with rfl | he''
      · exact hrest_ne_op j hj
      · exact inv.stack_fresh j (hrest_mem j hj) e he''
  case cover_open =>
    intro m hm hopen
    rcases Nat.lt_or_ge m idx with hm' | hm'
    · rcases inv.cover_open m hm' hopen with hin | ⟨e, he, hee⟩
      · rw [hs] at hin
        rcases List.mem_cons.mp hin with rfl | hin'
        · exact Or.inr ⟨(m, idx), List.mem_cons_of_mem _ (List.mem_cons_self _ _), rfl⟩
        · exact Or.inl hin'
      · exact Or.inr ⟨e, List.mem_cons_of_mem _ (List.mem_cons_of_mem _ he), hee⟩
    · have : m = idx := by omega
      subst this
      rw [hc] at hopen
      cases hopen
  case cover_close =>
    intro m hm hclose
    rcases Nat.lt_or_ge m idx with hm' | hm'
    · obtain ⟨e, he, hee⟩ := inv.cover_close m hm' hclose
      exact ⟨e, List.mem_cons_of_mem _ (List.mem_cons_of_mem _ he), hee⟩
    · have : m = idx := by omega
      subst this
      exact ⟨(m, op), List.mem_cons_self _ _, rfl⟩
  case legal_eq =>
    rw [inv.legal_eq, htake, List.countP_append]
    simp +decide [List.countP_cons]
  case prints_eq =>
    rw [htake]
    simp only [List.mem_append]
    rw [← inv.prints_eq]
    simp
  case pref_nonneg =>
    intro m hm
    rcases Nat.lt_or_ge m (idx + 1) with hm' | hm'
    · exact inv.pref_nonneg m (by omega)
    · have : m = idx + 1 := by omega
      subst this
      rw [hbs 0 (Nat.zero_le idx)]
      have hsb := inv.stack_bal
      rw [hs] at hsb
      simp only [List.length_cons] at hsb
      push_cast at hsb
      omega

/-- An unmatched closing bracket makes the just-extended prefix negative. -/
theorem scanInv_close_nil {p : List Char} {idx : Nat} {st : ScanState}
    (inv : ScanInv p idx st) (hc : p.get? idx = some ']')
    (hs : st.openStack = []) : bal p 0 (idx + 1) < 0 := by
  have hsb := inv.stack_bal
  rw [hs] at hsb
  simp only [List.length_nil] at hsb
  rw [bal_succ 0 (Nat.zero_le idx) hc]
  simp [brVal]
  omega

/-- Every scan step either fails on an unmatched close (with the extended
prefix balance negative) or preserves the invariant. -/
theorem scanStep_cases {p : List Char} {idx : Nat} {st : ScanState} {c : Char}
    (inv : ScanInv p idx st) (hc : p.get? idx = some c) :
    (scanStep idx c st = none ∧ bal p 0 (idx + 1) < 0) ∨
    (∃ st', scanStep idx c st = some st' ∧ ScanInv p (idx + 1) st') := by
  by_cases hopen : c = '['
  · subst hopen
    exact Or.inr ⟨_, scanStep_open, scanInv_open inv hc⟩
  · by_cases hclose : c = ']'
    · subst hclose
      cases hstk : st.openStack with
      | nil =>
        exact Or.inl ⟨scanStep_close_nil hstk, scanInv_close_nil inv hc hstk⟩
      | cons op restStack =>
        exact Or.inr ⟨_, scanStep_close_cons hstk, scanInv_close inv hc hstk⟩
    · by_cases hdot : c = '.'
      · subst hdot
        cases hpr : st.prints with
        | false =>
          refine Or.inr ⟨_, scanStep_dot hpr, scanInv_nonbracket inv hc
            (by decide) (by decide) rfl rfl ?_ ?_⟩
          · rw [(by decide :
              (if legal_instructions.contains '.' || isPyWs '.' then 1 else 0) = 1)]
          · simp [hpr]
        | true =>
          refine Or.inr ⟨_, scanStep_other (by decide) (by decide) (fun _ => hpr),
            scanInv_nonbracket inv hc (by decide) (by decide) rfl rfl rfl ?_⟩
          simp [hpr]
      · refine Or.inr ⟨_, scanStep_other hopen hclose (fun h => absurd h hdot),
          scanInv_nonbracket inv hc hopen hclose rfl rfl rfl ?_⟩
        simp [hdot]

/-- Scanning a chunk that matches the program segment starting at `idx`:
success carries the invariant to the end of the chunk. -/
theorem scanGo_some_inv {p : List Char} :
    ∀ (chunk : List Char) (idx : Nat) (st st' : ScanState),
      ScanInv p idx st →
      (∀ t, t < chunk.length → chunk.get? t = p.get? (idx + t)) →
      scanGo idx chunk st = some st' →
      ScanInv p (idx + chunk.length) st' := by
  intro chunk
  induction chunk with
  | nil =>
    intro idx st st' inv _ h
    cases h
    simpa using inv
  | cons c rest ih =>
    intro idx st st' inv hch h
    have hc : p.get? idx = some c := by
      have := hch 0 (by simp)
      simpa using this.symm
    rw [scanGo] at h
    rcases scanStep_cases inv hc with ⟨hnone, -⟩ | ⟨st1, hsome, inv1⟩
    · rw [hnone] at h
      cases h
    · rw [hsome] at h
      have hch1 : ∀ t, t < rest.length → rest.get? t = p.get? (idx + 1 + t) := by
        intro t ht
        have := hch (t + 1) (by simp only [List.length_cons]; omega)
        rw [List.get?_cons_succ] at this
        rw [this]
        congr 1
        omega
      have := ih (idx + 1) st1 st' inv1 hch1 h
      have harith : idx + 1 + rest.length = idx + (rest.length + 1) := by omega
      rw [harith] at this
      simpa using this

/-- Scanning a chunk that matches the program segment starting at `idx`:
failure exhibits a prefix with negative balance. -/
theorem scanGo_none_neg {p : List Char} :
    ∀ (chunk : List Char) (idx : Nat) (st : ScanState),
      ScanInv p idx st →
      (∀ t, t < chunk.length → chunk.get? t = p.get? (idx + t)) →
      scanGo idx chunk st = none →
      ∃ m, m ≤ idx + chunk.length ∧ bal p 0 m < 0 := by
  intro chunk
  induction chunk with
  | nil =>
    intro idx st inv _ h
    cases h
  | cons c rest ih =>
    intro idx st inv hch h
    have hc : p.get? idx = some c := by
      have := hch 0 (by simp)
      simpa using this.symm
    rw [scanGo] at h
    rcases scanStep_cases inv hc with ⟨hnone, hneg⟩ | ⟨st1, hsome, inv1⟩
    · exact ⟨idx + 1, by simp only [List.length_cons]; omega, hneg⟩
    · rw [hsome] at h
      have hch1 : ∀ t, t < rest.length → rest.get? t = p.get? (idx + 1 + t) := by
        intro t ht
        have := hch (t + 1) (by simp only [List.length_cons]; omega)
        rw [List.get?_cons_succ] at this
        rw [this]
        congr 1
        omega
      obtain ⟨m, hm, hneg⟩ := ih (idx + 1) st1 inv1 hch1 h
      exact ⟨m, by simp only [List.length_cons]; omega, hneg⟩

/-- The scan loop processes an appended chunk after the first part. -/
theorem scanGo_append :
    ∀ (a b : List Char) (idx : Nat) (st : ScanState),
      scanGo idx (a ++ b) st =
        match scanGo idx a st with
        | none => none
        | some st' => scanGo (idx + a.length) b st' := by
  intro a
  induction a with
  | nil =>
    intro b idx st
    simp [scanGo]
  | cons c rest ih =>
    intro b idx st
    rw [List.cons_append, scanGo, scanGo]
    cases scanStep idx c st with
    | none => rfl
    | some st1 =>
      show scanGo (idx + 1) (rest ++ b) st1 =
        match scanGo (idx + 1) rest st1 with
        | none => none
        | some st' => scanGo (idx + (c :: rest).length) b st'
      rw [ih b (idx + 1) st1]
      have h2 : idx + 1 + rest.length = idx + (c :: rest).length := by
        simp only [List.length_cons]
        omega
      rw [h2]

theorem bal_take (p : List Char) (m : Nat) :
    bal p 0 m = (opens (p.take m) : Int) - closes (p.take m) := by
  unfold bal
  rw [seg_zero]

theorem bal_append_left {pre : List Char} (x : List Char) {m : Nat}
    (hm : m ≤ pre.length) : bal (pre ++ x) 0 m = bal pre 0 m := by
  unfold bal
  rw [seg_zero, seg_zero, List.take_append_of_le_length hm]

/-- Outcome analysis of `bracemap_and_check`: either the scan fails early
(and some prefix has more `]` than `[`), or it completes with the invariant
holding at the end of the program. -/
theorem bracemap_cases (program : List Char) :
    (bracemap_and_check program = (none, false) ∧
       ∃ m, m ≤ program.length ∧ bal program 0 m < 0) ∨
    (∃ st, scanGo 0 program ⟨[], [], false, 0⟩ = some st ∧
       ScanInv program program.length st ∧
       bracemap_and_check program =
         (some st.bm,
          st.legalCount == program.length && st.openStack.isEmpty && st.prints)) := by
  have hch : ∀ t, t < program.length → program.get? t = program.get? (0 + t) := by
    intro t _
    rw [Nat.zero_add]
  cases hg : scanGo 0 program ⟨[], [], false, 0⟩ with
  | none =>
    left
    constructor
    · unfold bracemap_and_check
      rw [hg]
    · obtain ⟨m, hm, hneg⟩ :=
        scanGo_none_neg program 0 ⟨[], [], false, 0⟩ (scanInv_init program) hch hg
      exact ⟨m, by omega, hneg⟩
  | some st =>
    right
    refine ⟨st, rfl, ?_, ?_⟩
    · have := scanGo_some_inv program 0 ⟨[], [], false, 0⟩ st (scanInv_init program) hch hg
      simpa using this
    · unfold bracemap_and_check
      rw [hg]

/-- C4: the Validator declares a program valid exactly when every character
is a legal instruction or whitespace, no prefix closes more brackets than it
opens (no unmatched `]`), the total bracket counts agree (no unmatched `[`,
i.e. the open-stack is empty at end-of-scan), and the program contains at
least one output instruction; and on an unmatched `]` it returns
immediately — whatever follows — with no table and `isValid = false`. -/
theorem C4_validator_iff :
    (∀ program : List Char,
       ((bracemap_and_check program).2 = true ↔
         ((∀ c ∈ program, (legal_instructions.contains c || isPyWs c) = true) ∧
          (∀ n, n ≤ program.length →
            closes (program.take n) ≤ opens (program.take n)) ∧
          opens program = closes program ∧ '.' ∈ program))) ∧
    (∀ pre rest : List Char,
       (∀ n, n ≤ pre.length → closes (pre.take n) ≤ opens (pre.take n)) →
       opens pre = closes pre →
       bracemap_and_check (pre ++ ']' :: rest) = (none, false)) := by
  constructor
  · intro program
    rcases bracemap_cases program with ⟨hbc, m, hm, hneg⟩ | ⟨st, hg, inv, hbc⟩
    · rw [hbc]
      simp only [Bool.false_eq_true, false_iff]
      intro ⟨hleg, hpref, hbal, hdot⟩
      rw [bal_take] at hneg
      have := hpref m hm
      omega
    · rw [hbc]
      simp only [Bool.and_eq_true, beq_iff_eq, List.isEmpty_iff]
      constructor
      · rintro ⟨⟨hlc, hstk⟩, hpr⟩
        refine ⟨?_, ?_, ?_, ?_⟩
        · have := inv.legal_eq
          rw [List.take_length] at this
          rw [this] at hlc
          exact List.countP_eq_length.mp hlc
        · intro n hn
          have := inv.pref_nonneg n hn
          rw [bal_take] at this
          omega
        · have hsb := inv.stack_bal
          rw [hstk, bal_full] at hsb
          simp at hsb
          omega
        · have := inv.prints_eq.mp hpr
          rwa [List.take_length] at this
      · rintro ⟨hleg, hpref, hbal, hdot⟩
        refine ⟨⟨?_, ?_⟩, ?_⟩
        · rw [inv.legal_eq, List.take_length]
          exact List.countP_eq_length.mpr hleg
        · have hsb := inv.stack_bal
          rw [bal_full] at hsb
          have : st.openStack.length = 0 := by omega
          exact List.length_eq_zero.mp this
        · rw [inv.prints_eq, List.take_length]
          exact hdot
  · intro pre rest hpref hbal
    have hch : ∀ t, t < pre.length →
        pre.get? t = (pre ++ ']' :: rest).get? (0 + t) := by
      intro t ht
      rw [Nat.zero_add, List.get?_append ht]
    cases hg : scanGo 0 pre ⟨[], [], false, 0⟩ with
    | none =>
      exfalso
      obtain ⟨m, hm, hneg⟩ := scanGo_none_neg (p := pre ++ ']' :: rest) pre 0 _
        (scanInv_init _) hch hg
      have hm' : m ≤ pre.length := by omega
      rw [bal_append_left _ hm', bal_take] at hneg
      have := hpref m hm'
      omega
    | some st =>
      have inv : ScanInv (pre ++ ']' :: rest) pre.length st := by
        have := scanGo_some_inv (p := pre ++ ']' :: rest) pre 0 _ st
          (scanInv_init _) hch hg
        simpa using this
      have hstk : st.openStack = [] := by
        have hsb := inv.stack_bal
        rw [bal_append_left (']' :: rest) (le_refl pre.length), bal_full] at hsb
        have : st.openStack.length = 0 := by omega
        exact List.length_eq_zero.mp this
      have hscan : scanGo 0 (pre ++ ']' :: rest) ⟨[], [], false, 0⟩ = none := by
        rw [scanGo_append, hg]
        show scanGo (0 + pre.length) (']' :: rest) st = none
        rw [scanGo, scanStep_close_nil hstk]
      unfold bracemap_and_check
      rw [hscan]

/-- Witness for C4 at concrete programs. -/
theorem C4_validator_iff_witness :
    (bracemap_and_check ['[', '.', ']']).2 = true ∧
    bracemap_and_check [']'] = (none, false) :=
  ⟨(C4_validator_iff.1 ['[', '.', ']']).mpr (by decide),
   C4_validator_iff.2 [] [] (by decide) (by decide)⟩

/-- C5: for a program the Validator accepts, the produced jump table is
symmetric — whenever position `i` holds `[` and maps to `j`, then `j` maps
back to `i` — with `j > i` the position of the nearest structurally matching
`]`. -/
theorem C5_bracemap_symmetric :
    ∀ (program : List Char) (bm : List (Nat × Nat)),
      bracemap_and_check program = (some bm, true) →
      ∀ i j, program.get? i = some '[' → List.lookup i bm = some j →
        List.lookup j bm = some i ∧ i < j ∧ nearestMatchingClose program i j := by
  intro program bm hv i j hopen hlk
  rcases bracemap_cases program with ⟨hbc, -⟩ | ⟨st, hg, inv, hbc⟩
  · rw [hbc] at hv
    cases hv
  · rw [hbc] at hv
    have hbm : st.bm = bm := by
      have := congrArg Prod.fst hv
      simpa using this
    subst hbm
    have hmem : (i, j) ∈ st.bm := lookup_mem hlk
    obtain ⟨a, b, hgd, hb, hcase⟩ := inv.bm_pairs _ hmem
    have hij : i = a ∧ j = b := by
      rcases hcase with heq | heq
      · exact ⟨congrArg Prod.fst heq, congrArg Prod.snd heq⟩
      · exfalso
        have hia : i = b := congrArg Prod.fst heq
        rw [hia, hgd.2.2.1] at hopen
        cases hopen
    obtain ⟨rfl, rfl⟩ := hij
    refine ⟨?_, hgd.1, ?_⟩
    · exact mem_lookup_of_nodup inv.bm_keys_nodup (inv.bm_sym _ hmem)
    · refine ⟨hgd.1, hgd.2.2.1, hgd.2.2.2.1, ?_⟩
      rintro k hk1 hk2 ⟨-, hzero⟩
      have := hgd.2.2.2.2 (k + 1) (by omega) (by omega)
      omega

/-- Witness for C5 at a concrete program. -/
theorem C5_bracemap_symmetric_witness :
    List.lookup 2 [(2, 0), (0, 2)] = some (0 : Nat) ∧ (0 : Nat) < 2 ∧
      nearestMatchingClose ['[', '.', ']'] 0 2 :=
  C5_bracemap_symmetric ['[', '.', ']'] [(2, 0), (0, 2)] (by decide) 0 2
    (by decide) (by decide)

/-- The validator never reports a valid program without producing a table. -/
theorem bracemap_some_of_valid {program : List Char}
    (h : (bracemap_and_check program).2 = true) :
    ∃ bm, (bracemap_and_check program).1 = some bm := by
  unfold bracemap_and_check at h ⊢
  cases hsg : scanGo 0 program ⟨[], [], false, 0⟩ with
  | none =>
    simp only [hsg] at h
    cases h
  | some st =>
    simp only [hsg]
    exact ⟨st.bm, rfl⟩

/-- In a program the validator accepts, every bracket position has a
bracemap key. -/
theorem valid_cover {program : List Char} {bm : List (Nat × Nat)}
    (h : bracemap_and_check program = (some bm, true)) :
    ∀ i, i < program.length →
      (program.get? i = some '[' ∨ program.get? i = some ']') →
      (List.lookup i bm).isSome := by
  intro i hi hbr
  rcases bracemap_cases program with ⟨hbc, -⟩ | ⟨st, hg, inv, hbc⟩
  · rw [hbc] at h
    cases h
  · rw [hbc] at h
    have hbm : st.bm = bm := by
      have := congrArg Prod.fst h
      simpa using this
    have hval := congrArg Prod.snd h
    simp only [Bool.and_eq_true, List.isEmpty_iff] at hval
    obtain ⟨⟨-, hstk⟩, -⟩ := hval
    subst hbm
    rcases hbr with hopen | hclose
    · rcases inv.cover_open i hi hopen with hin | hkey
      · rw [hstk] at hin
        cases hin
      · exact lookup_isSome_of_mem_fst hkey
    · exact lookup_isSome_of_mem_fst (inv.cover_close i hi hclose)

/-- C9: `decode` never propagates an exception: for every input, clock and
fuel, the outcome is never the fault marker — each internal failure
(inapplicable input, empty transpilation, validator rejection, timeout)
collapses to the absent result, and a present result is a string. -/
theorem C9_no_fault :
    ∀ (elapsed : Nat → ℚ) (fuel : Nat) (ctext : String),
      decode elapsed fuel ctext ≠ DecodeRes.fault := by
  intro elapsed fuel ctext
  unfold decode decodeCore
  cases hbf : ook_to_brainfuck ctext.data with
  | none => simp
  | some bf =>
    simp only []
    rcases hbc : bracemap_and_check bf with ⟨bmOpt, isbf⟩
    cases isbf with
    | false => simp
    | true =>
      obtain ⟨bm, hbm⟩ := bracemap_some_of_valid (by rw [hbc])
      rw [hbc] at hbm
      simp only [] at hbm
      subst hbm
      simp only [if_pos rfl]
      have hnf := run_no_fault elapsed bf bm
        (valid_cover (by rw [hbc])) fuel 0 initialState goodState_initial
      cases hrun : run elapsed bf bm fuel 0 initialState with
      | ok out => simp [RunResult.toDecodeRes]
      | timeout => simp [RunResult.toDecodeRes]
      | fault => exact absurd hrun hnf
      | fuelOut => simp [RunResult.toDecodeRes]

/-- Witness for C9 at a concrete input. -/
theorem C9_no_fault_witness :
    decode (fun _ => 0) 5 "hello" ≠ DecodeRes.fault :=
  C9_no_fault (fun _ => 0) 5 "hello"

/-- Unfolding equation for the transpiler. -/
theorem ook_to_brainfuck_eq (l : List Char) :
    ook_to_brainfuck l =
      (if (ookPairs (pySplit (pyStrip (pyLower l)))).isEmpty then none
       else some (ookPairs (pySplit (pyStrip (pyLower l))))) := rfl

set_option maxRecDepth 100000 in
/-- C1: any input text whose token stream is 65 repetitions of the token
pair mapped to `+` followed by one instance of the token pair mapped to `.`
decodes to the single-character string `"A"` (code point 65), under any
clock within the time limit and any sufficient fuel. -/
theorem C1_decodes_A :
    ∀ (s : String) (elapsed : Nat → ℚ) (fuel : Nat),
      (∀ n, elapsed n ≤ timelimit) → 67 ≤ fuel →
      pySplit (pyStrip (pyLower s.data)) = c1Tokens →
      decode elapsed fuel s = .result (some "A") := by
  intro s elapsed fuel hcl hfuel htok
  have hbf : ook_to_brainfuck s.data = some c1Prog := by
    rw [ook_to_brainfuck_eq, htok]
    decide
  have hbc : bracemap_and_check c1Prog = (some [], true) := by decide
  unfold decode decodeCore
  simp only [hbf, hbc]
  rw [run_eq_runNT elapsed c1Prog [] hcl]
  rw [runNT_mono c1Prog [] 67 initialState (by decide) fuel hfuel]
  rw [(by decide : runNT c1Prog [] 67 initialState = RunResult.ok [65])]
  decide

set_option maxRecDepth 100000 in
/-- Witness for C1 at the canonical input. -/
theorem C1_decodes_A_witness :
    decode (fun _ => 0) 67 c1Canonical = .result (some "A") :=
  C1_decodes_A c1Canonical (fun _ => 0) 67
    (fun _ => show (0 : ℚ) ≤ timelimit by decide) (by decide) (by decide)

/-! ### Substrings, whitespace splitting, and the marker tokens -/

theorem startsList_append (pat b : List Char) : startsList pat (pat ++ b) = true := by
  induction pat with
  | nil => rfl
  | cons c rest ih => simp [startsList, ih]

theorem subList_of_occursIn {pat l : List Char} (h : occursIn pat l) :
    subList pat l = true := by
  obtain ⟨a, b, rfl⟩ := h
  induction a with
  | nil =>
    simp only [List.nil_append]
    cases hq : pat ++ b with
    | nil =>
      have hpat : pat = [] := by
        cases pat with
        | nil => rfl
        | cons x xs => simp at hq
      subst hpat
      rfl
    | cons d ds =>
      rw [subList, ← hq, startsList_append]
      rfl
  | cons c arest ih =>
    show subList pat (c :: (arest ++ pat ++ b)) = true
    rw [subList, Bool.or_eq_true]
    exact Or.inr ih

theorem occursIn_trans {t m l : List Char} (h1 : occursIn t m) (h2 : occursIn m l) :
    occursIn t l := by
  obtain ⟨a, b, rfl⟩ := h1
  obtain ⟨c, d, rfl⟩ := h2
  exact ⟨c ++ a, b ++ d, by simp⟩

theorem occursIn_dropWhile (q : Char → Bool) (l : List Char) :
    occursIn (l.dropWhile q) l :=
  ⟨l.takeWhile q, [], by simp [List.takeWhile_append_dropWhile]⟩

theorem occursIn_stripRight (q : Char → Bool) (r : List Char) :
    occursIn ((r.reverse.dropWhile q).reverse) r := by
  refine ⟨[], (r.reverse.takeWhile q).reverse, ?_⟩
  have h := List.takeWhile_append_dropWhile (p := q) (l := r.reverse)
  have h2 := congrArg List.reverse h
  rw [List.reverse_append, List.reverse_reverse] at h2
  simp only [List.nil_append]
  exact h2.symm

theorem pyStrip_occursIn (l : List Char) : occursIn (pyStrip l) l := by
  unfold pyStrip
  exact occursIn_trans (occursIn_stripRight isPyWs (l.dropWhile isPyWs))
    (occursIn_dropWhile isPyWs l)

theorem splitWsAux_wsFree :
    ∀ (l acc : List Char), (∀ c ∈ acc, isPyWs c = false) →
      ∀ t ∈ splitWsAux l acc, wsFree t := by
  intro l
  induction l with
  | nil =>
    intro acc hacc t ht
    rw [splitWsAux] at ht
    split at ht
    · cases ht
    · rcases List.mem_singleton.mp ht with rfl
      intro c hc
      exact hacc c (List.mem_reverse.mp hc)
  | cons c rest ih =>
    intro acc hacc t ht
    rw [splitWsAux] at ht
    by_cases hws : isPyWs c
    · rw [if_pos hws] at ht
      split at ht
      · exact ih [] (by intro x hx; cases hx) t ht
      · rcases List.mem_cons.mp ht with rfl | ht'
        · intro x hx
          exact hacc x (List.mem_reverse.mp hx)
        · exact ih [] (by intro x hx; cases hx) t ht'
    · rw [if_neg hws] at ht
      refine ih (c :: acc) ?_ t ht
      intro x hx
      rcases List.mem_cons.mp hx with rfl | hx'
      · simpa using hws
      · exact hacc x hx'

theorem splitWsAux_occursIn :
    ∀ (l acc : List Char), ∀ t ∈ splitWsAux l acc, occursIn t (acc.reverse ++ l) := by
  intro l
  induction l with
  | nil =>
    intro acc t ht
    rw [splitWsAux] at ht
    split at ht
    · cases ht
    · rcases List.mem_singleton.mp ht with rfl
      exact ⟨[], [], by simp⟩
  | cons c rest ih =>
    intro acc t ht
    rw [splitWsAux] at ht
    by_cases hws : isPyWs c
    · rw [if_pos hws] at ht
      have hsub : ∀ t ∈ splitWsAux rest [], occursIn t (acc.reverse ++ c :: rest) := by
        intro t ht'
        obtain ⟨a, b, hab⟩ := ih [] t ht'
        simp only [List.reverse_nil, List.nil_append] at hab
        exact ⟨acc.reverse ++ c :: a, b, by simp [hab]⟩
      split at ht
      · exact hsub t ht
      · rcases List.mem_cons.mp ht with rfl | ht'
        · exact ⟨[], c :: rest, by simp⟩
        · exact hsub t ht'
    · rw [if_neg hws] at ht
      have := ih (c :: acc) t ht
      simp only [List.reverse_cons] at this
      rwa [List.append_assoc, List.singleton_append] at this

/-- Splitting the initial space out of a pair key: if the first component is
space-free, it is the maximal space-free prefix of the key. -/
theorem space_split :
    ∀ (t1 : List Char) (t2 l : List Char), (∀ c ∈ t1, (c == ' ') = false) →
      t1 ++ ' ' :: t2 = l → t1 = l.takeWhile (fun c => !(c == ' ')) := by
  intro t1
  induction t1 with
  | nil =>
    intro t2 l _ hl
    rw [← hl]
    rfl
  | cons c rest ih =>
    intro t2 l hfree hl
    rw [← hl, List.cons_append, List.takeWhile_cons]
    rw [hfree c (List.mem_cons_self _ _)]
    simp only [Bool.not_false, if_pos]
    rw [← ih t2 (rest ++ ' ' :: t2) (fun x hx => hfree x (List.mem_cons_of_mem _ hx)) rfl]

/-- A successful pair lookup forces the first token to be one of the three
markers. -/
theorem lookup_first_marker {t1 t2 : List Char} {c : Char}
    (hws : wsFree t1) (h : ook_map.lookup (t1 ++ ' ' :: t2) = some c) :
    t1 = ookDotTok ∨ t1 = ookBangTok ∨ t1 = ookQTok := by
  have hsp : ∀ c ∈ t1, (c == ' ') = false := by
    intro x hx
    have hws' := hws x hx
    by_cases hxeq : x = ' '
    · rw [hxeq] at hws'
      exact absurd hws' (by decide)
    · simpa using hxeq
  have hkey : ∀ (key : List Char), t1 ++ ' ' :: t2 = key →
      t1 = key.takeWhile (fun c => !(c == ' ')) :=
    fun key heq => space_split t1 t2 key hsp heq
  rw [ook_map] at h
  rw [List.lookup] at h
  cases h1 : ((t1 ++ ' ' :: t2) == "ook. ook?".toList) with
  | true => exact Or.inl (by rw [hkey _ (eq_of_beq h1)]; decide)
  | false =>
  simp only [h1] at h
  rw [List.lookup] at h
  cases h2 : ((t1 ++ ' ' :: t2) == "ook? ook.".toList) with
  | true => exact Or.inr (Or.inr (by rw [hkey _ (eq_of_beq h2)]; decide))
  | false =>
  simp only [h2] at h
  rw [List.lookup] at h
  cases h3 : ((t1 ++ ' ' :: t2) == "ook. ook.".toList) with
  | true => exact Or.inl (by rw [hkey _ (eq_of_beq h3)]; decide)
  | false =>
  simp only [h3] at h
  rw [List.lookup] at h
  cases h4 : ((t1 ++ ' ' :: t2) == "ook! ook!".toList) with
  | true => exact Or.inr (Or.inl (by rw [hkey _ (eq_of_beq h4)]; decide))
  | false =>
  simp only [h4] at h
  rw [List.lookup] at h
  cases h5 : ((t1 ++ ' ' :: t2) == "ook! ook.".toList) with
  | true => exact Or.inr (Or.inl (by rw [hkey _ (eq_of_beq h5)]; decide))
  | false =>
  simp only [h5] at h
  rw [List.lookup] at h
  cases h6 : ((t1 ++ ' ' :: t2) == "ook. ook!".toList) with
  | true => exact Or.inl (by rw [hkey _ (eq_of_beq h6)]; decide)
  | false =>
  simp only [h6] at h
  rw [List.lookup] at h
  cases h7 : ((t1 ++ ' ' :: t2) == "ook! ook?".toList) with
  | true => exact Or.inr (Or.inl (by rw [hkey _ (eq_of_beq h7)]; decide))
  | false =>
  simp only [h7] at h
  rw [List.lookup] at h
  cases h8 : ((t1 ++ ' ' :: t2) == "ook? ook!".toList) with
  | true => exact Or.inr (Or.inr (by rw [hkey _ (eq_of_beq h8)]; decide))
  | false =>
  simp only [h8] at h
  cases h

/-- The pairing loop emits nothing when no token is a marker. -/
theorem ookPairsGo_nil :
    ∀ (toks : List (List Char)) (pending : Option (List Char)),
      (∀ t ∈ toks, wsFree t ∧ t ≠ ookDotTok ∧ t ≠ ookBangTok ∧ t ≠ ookQTok) →
      (∀ t1, pending = some t1 →
        wsFree t1 ∧ t1 ≠ ookDotTok ∧ t1 ≠ ookBangTok ∧ t1 ≠ ookQTok) →
      ookPairsGo pending toks = [] := by
  intro toks
  induction toks with
  | nil =>
    intro pending _ _
    cases pending <;> rfl
  | cons t rest ih =>
    intro pending htoks hpend
    cases pending with
    | none =>
      rw [ookPairsGo]
      exact ih (some t) (fun x hx => htoks x (List.mem_cons_of_mem _ hx))
        (fun t1 ht1 => by cases ht1; exact htoks t (List.mem_cons_self _ _))
    | some t1 =>
      rw [ookPairsGo]
      cases hlk : ook_map.lookup (t1 ++ ' ' :: t) with
      | some c =>
        exfalso
        obtain ⟨hws, hd, hb, hq⟩ := hpend t1 rfl
        rcases lookup_first_marker hws hlk with h | h | h
        · exact hd h
        · exact hb h
        · exact hq h
      | none =>
        exact ih (some t) (fun x hx => htoks x (List.mem_cons_of_mem _ hx))
          (fun x hx => by cases hx; exact htoks t (List.mem_cons_self _ _))

/-- C2, counterexample: `"hello"` contains none of the three token markers,
yet `decode` performs one transpilation attempt on it (the transpiler is
invoked, not skipped), refuting "zero transpilation attempts". -/
theorem C2_counterexample :
    subList ookDotTok (pyLower "hello".data) = false ∧
    subList ookBangTok (pyLower "hello".data) = false ∧
    subList ookQTok (pyLower "hello".data) = false ∧
    (decodeCore (fun _ => 0) 1 "hello").1 = 1 ∧ (1 : Nat) ≠ 0 := by
  decide

/-- C2, amended: for every input text containing none of the three token
markers, `decode` returns absent — but only after invoking the transpiler
exactly once (there is no applicability pre-check inside `decode`); the
absent result arises because transpilation yields zero instructions. -/
theorem C2_decode_absent :
    ∀ (s : String) (elapsed : Nat → ℚ) (fuel : Nat),
      subList ookDotTok (pyLower s.data) = false →
      subList ookBangTok (pyLower s.data) = false →
      subList ookQTok (pyLower s.data) = false →
      decodeCore elapsed fuel s = (1, .result none) := by
  intro s elapsed fuel h1 h2 h3
  have hocc : ∀ t ∈ pySplit (pyStrip (pyLower s.data)), occursIn t (pyLower s.data) := by
    intro t ht
    have hx := splitWsAux_occursIn (pyStrip (pyLower s.data)) [] t ht
    simp only [List.reverse_nil, List.nil_append] at hx
    exact occursIn_trans hx (pyStrip_occursIn (pyLower s.data))
  have hws : ∀ t ∈ pySplit (pyStrip (pyLower s.data)), wsFree t := by
    intro t ht
    exact splitWsAux_wsFree (pyStrip (pyLower s.data)) [] (by intro x hx; cases hx) t ht
  have hnm : ∀ t ∈ pySplit (pyStrip (pyLower s.data)),
      wsFree t ∧ t ≠ ookDotTok ∧ t ≠ ookBangTok ∧ t ≠ ookQTok := by
    intro t ht
    refine ⟨hws t ht, ?_, ?_, ?_⟩ <;> intro heq <;> subst heq
    · have := subList_of_occursIn (hocc _ ht)
      rw [h1] at this
      cases this
    · have := subList_of_occursIn (hocc _ ht)
      rw [h2] at this
      cases this
    · have := subList_of_occursIn (hocc _ ht)
      rw [h3] at this
      cases this
  have hnil : ookPairs (pySplit (pyStrip (pyLower s.data))) = [] :=
    ookPairsGo_nil _ none hnm (fun t1 ht1 => by cases ht1)
  have hbf : ook_to_brainfuck s.data = none := by
    rw [ook_to_brainfuck_eq, hnil]
    rfl
  unfold decodeCore
  rw [hbf]

/-- Witness for the amended C2 at a concrete input. -/
theorem C2_decode_absent_witness :
    decodeCore (fun _ => 0) 3 "hello" = (1, .result none) :=
  C2_decode_absent "hello" (fun _ => 0) 3 (by decide) (by decide) (by decide)

end Ook
